import Mathlib

/-!
Verification of the VisualEditor DataModel Transaction core
(`src/dm/ve.dm.Transaction.js`) as a shallow embedding in Lean 4.

The embedding follows the JavaScript source: linear-model items, the six
operation variants, the transaction transforms (`reversed`, `clone`,
`isNoOp`, `translateOffset`, `translateRange`), the builder primitives
(`pushRetain`, `pushRetainMetadata`, `pushReplace`, `pushReplaceMetadata`,
`addSafeRemoveOps`, `pushRemoval`, `pushInsertion`, `pushFinalRetain`),
the high-level constructors needed by the claims (`newFromRemoval`,
`newFromMetadataRemoval`, `newFromMetadataElementReplacement`) and the
rebase engine (`getActiveRangeAndLengthDiff`, `adjustRetain`,
`rebaseTransactions`).

Collaborator classes that are not part of the repository source
(`ve.Range`, `ve.dm.Document`, `ve.dm.NodeFactory`, `ve.dm.MetaLinearData`)
are modelled from the spec as explicit data plus oracle function fields, as
documented at each definition.

JavaScript numbers are modelled as `Int`; a thrown `Error` is modelled as
`Except.error` carrying the message together with the operations list at
the moment of the throw (so that exception-safety statements about the
operations list can be expressed).
-/

namespace VeDm

/-- A metadata element. The transaction core treats metadata elements as
opaque values; we model them as strings. -/
abbrev Meta := String

/-- One metadata cell: the (possibly empty) ordered list of metadata
elements attached at one data offset. A JS `undefined` cell is collapsed
to the empty cell, matching how `ve.compare` treats holes as empty. -/
abbrev Cell := List Meta

/-- A linear-model item: a character (with annotation store indexes) or an
element marker (opening with attributes, or closing). -/
inductive Item where
  | char (c : String) (annotations : List Int)
  | openEl (t : String) (attributes : List (String × String))
  | closeEl (t : String)
deriving DecidableEq, Repr

/-- Annotate-operation method: `set` or `clear`. -/
inductive Method where
  | set
  | clear
deriving DecidableEq, Repr

/-- Annotate-operation bias: `start` or `stop`. -/
inductive Bias where
  | start
  | stop
deriving DecidableEq, Repr

/-- The six operation variants of `ve.dm.Transaction`. Optional JS fields
(`removeMetadata`/`insertMetadata`, `insertedDataOffset`/`insertedDataLength`,
absent or `undefined`) are modelled with `Option`. The JS `attribute` type
is spelled `attr` because `attribute` is a Lean keyword. -/
inductive Op where
  | retain (length : Int)
  | retainMetadata (length : Int)
  | replace (remove insert : List Item)
      (removeMetadata insertMetadata : Option (List Cell))
      (insertedDataOffset insertedDataLength : Option Int)
  | replaceMetadata (remove insert : List Meta)
  | attr (key : String) (fromVal toVal : Option String)
  | annotate (method : Method) (bias : Bias) (index : Int)
deriving DecidableEq, Repr

/-- A transaction: an ordered operations list and the `applied` flag
(initially false), as in the `ve.dm.Transaction` constructor. -/
structure Transaction where
  operations : List Op
  applied : Bool
deriving DecidableEq, Repr

/-- Modelled from the spec: `ve.Range` is an immutable `{start, end}` pair
(the spec's §6 collaborator interface; `end` is spelled `endPos` because
`end` is a Lean keyword). -/
structure Range where
  start : Int
  endPos : Int
deriving DecidableEq, Repr

/-- Modelled from the spec: a range is backwards when `start > end`. -/
def Range.isBackwards (r : Range) : Bool :=
  r.start > r.endPos

/-- Modelled from the spec: a range is collapsed when `start = end`. -/
def Range.isCollapsed (r : Range) : Bool :=
  r.start = r.endPos

/-- `ve.dm.Transaction.prototype.clone`: same operations, `applied`
cleared. -/
def Transaction.clone (t : Transaction) : Transaction :=
  { operations := t.operations, applied := false }

/-- The per-operation reversal transform encoded by
`ve.dm.Transaction.reversers` as interpreted by
`ve.dm.Transaction.prototype.reversed`: `annotate` swaps `set`/`clear`
keeping `bias`; `attribute` swaps `from`/`to`; `replace` swaps
`insert`/`remove` and `insertMetadata`/`removeMetadata`; `replaceMetadata`
swaps `insert`/`remove`; all other operations are copied verbatim. -/
def reverseOp : Op → Op
  | .annotate m b i =>
      .annotate (match m with | .set => .clear | .clear => .set) b i
  | .attr k f t => .attr k t f
  | .replace rem ins rm im ido idl => .replace ins rem im rm ido idl
  | .replaceMetadata rem ins => .replaceMetadata ins rem
  | op => op

/-- `ve.dm.Transaction.prototype.reversed`: one reversed operation per
original operation, in order; the fresh transaction has `applied = false`. -/
def Transaction.reversed (t : Transaction) : Transaction :=
  { operations := t.operations.map reverseOp, applied := false }

/-- `ve.dm.Transaction.prototype.isNoOp`: empty, or a single `retain`, or
`retain` followed by `retainMetadata`. -/
def Transaction.isNoOp (t : Transaction) : Bool :=
  match t.operations with
  | [] => true
  | [Op.retain _] => true
  | [Op.retain _, Op.retainMetadata _] => true
  | _ => false

/-- The scan loop of `ve.dm.Transaction.prototype.translateOffset`:
`cursor` and `adjustment` are the loop state; operations other than
`replace` and `retain` are skipped. -/
def translateOffsetGo (offset : Int) (excludeInsertion : Bool) :
    List Op → Int → Int → Int
  | [], _, adjustment => offset + adjustment
  | op :: rest, cursor, adjustment =>
    match op with
    | .replace remove insert _ _ _ _ =>
      let insertLength : Int := insert.length
      let removeLength : Int := remove.length
      let prevAdjustment := adjustment
      let adjustment2 := adjustment + insertLength - removeLength
      if offset = cursor + removeLength then
        if excludeInsertion = true ∧ insertLength > removeLength then
          offset + adjustment2 - insertLength + removeLength
        else
          offset + adjustment2
      else if offset = cursor then
        if insertLength = 0 then
          cursor + removeLength + adjustment2
        else
          cursor + prevAdjustment
      else if cursor < offset ∧ offset < cursor + removeLength then
        cursor + removeLength + adjustment2
      else
        translateOffsetGo offset excludeInsertion rest (cursor + removeLength) adjustment2
    | .retain len =>
      if cursor ≤ offset ∧ offset < cursor + len then
        offset + adjustment
      else
        translateOffsetGo offset excludeInsertion rest (cursor + len) adjustment
    | _ => translateOffsetGo offset excludeInsertion rest cursor adjustment

/-- `ve.dm.Transaction.prototype.translateOffset`. -/
def Transaction.translateOffset (t : Transaction) (offset : Int)
    (excludeInsertion : Bool) : Int :=
  translateOffsetGo offset excludeInsertion t.operations 0 0

/-- `ve.dm.Transaction.prototype.translateRange`: start translated with
`!excludeInsertion`, end with `excludeInsertion`; a backwards input range
yields a backwards-constructed output. -/
def Transaction.translateRange (t : Transaction) (range : Range)
    (excludeInsertion : Bool) : Range :=
  let s := t.translateOffset range.start (!excludeInsertion)
  let e := t.translateOffset range.endPos excludeInsertion
  if range.isBackwards then { start := e, endPos := s }
  else { start := s, endPos := e }

/-- Is an operation `retain` or `retainMetadata`? (Used by the active-range
computation.) -/
def Op.isRetainLike : Op → Bool
  | .retain _ => true
  | .retainMetadata _ => true
  | _ => false

/-- Result of `getActiveRangeAndLengthDiff` inside
`ve.dm.Transaction.rebaseTransactions`: optional start/end markers of the
active range in start-document coordinates, and the length diff. -/
structure ActiveInfo where
  startO : Option Int
  endO : Option Int
  diff : Int
deriving DecidableEq, Repr

/-- Loop state of `getActiveRangeAndLengthDiff`. -/
structure GarState where
  offset : Int
  annotations : Int
  startO : Option Int
  endO : Option Int
  diff : Int
deriving DecidableEq, Repr

/-- One iteration of the `getActiveRangeAndLengthDiff` loop: `annotate`
operations adjust the annotations counter and `continue`; otherwise an
operation is active if the annotations counter is positive or it is not a
retain; the start marker is placed (once) before the cursor moves, the end
marker after, with `attribute`/`replaceMetadata` placing the end marker at
`offset + 1`. -/
def garStep (s : GarState) (op : Op) : GarState :=
  match op with
  | .annotate _ b _ =>
      { s with annotations := s.annotations + (if b = Bias.start then 1 else -1) }
  | _ =>
    let active := decide (s.annotations > 0) || !op.isRetainLike
    let startO := if active && s.startO.isNone then some s.offset else s.startO
    let offset2 := match op with
      | .retain l => s.offset + l
      | .replace rem _ _ _ _ _ => s.offset + rem.length
      | _ => s.offset
    let diff2 := match op with
      | .replace rem ins _ _ _ _ => s.diff + ins.length - rem.length
      | _ => s.diff
    let endO2 := match op with
      | .attr _ _ _ => some (offset2 + 1)
      | .replaceMetadata _ _ => some (offset2 + 1)
      | _ => if active then some offset2 else s.endO
    { offset := offset2, annotations := s.annotations, startO := startO,
      endO := endO2, diff := diff2 }

/-- `getActiveRangeAndLengthDiff` from `ve.dm.Transaction.rebaseTransactions`. -/
def getActiveRangeAndLengthDiff (t : Transaction) : ActiveInfo :=
  let s := t.operations.foldl garStep
    { offset := 0, annotations := 0, startO := none, endO := none, diff := 0 }
  { startO := s.startO, endO := s.endO, diff := s.diff }

/-- JS `<=` on possibly-undefined numbers: false when either side is
undefined. -/
def jsLe (a b : Option Int) : Bool :=
  match a, b with
  | some x, some y => decide (x ≤ y)
  | _, _ => false

/-- `adjustRetain` from `ve.dm.Transaction.rebaseTransactions`: adjust the
retain length at the start or end of an operations list (stepping over a
trailing `retainMetadata` when adjusting the end); remove a retain that
becomes zero; insert a new retain when none is present; error on a negative
length. -/
def adjustRetain (ops : List Op) (atStart : Bool) (diff : Int) :
    Except String (List Op) :=
  if diff = 0 then .ok ops
  else if atStart then
    match ops with
    | Op.retain len :: rest =>
        if len + diff < 0 then .error "Negative retain length"
        else if len + diff = 0 then .ok rest
        else .ok (Op.retain (len + diff) :: rest)
    | _ =>
        if diff < 0 then .error "Negative retain length"
        else .ok (Op.retain diff :: ops)
  else
    match ops.reverse with
    | Op.retainMetadata m :: Op.retain len :: rest =>
        if len + diff < 0 then .error "Negative retain length"
        else if len + diff = 0 then .ok (Op.retainMetadata m :: rest).reverse
        else .ok (Op.retainMetadata m :: Op.retain (len + diff) :: rest).reverse
    | Op.retain len :: rest =>
        if len + diff < 0 then .error "Negative retain length"
        else if len + diff = 0 then .ok rest.reverse
        else .ok (Op.retain (len + diff) :: rest).reverse
    | _ =>
        if diff < 0 then .error "Negative retain length"
        else .ok (ops ++ [Op.retain diff])

/-- `ve.dm.Transaction.rebaseTransactions`: clone both transactions,
compute active ranges, and either adjust retains (no-op case, or the two
separated cases) or return the conflict result `[null, null]` (modelled as
`some`/`none`). A thrown `Negative retain length` surfaces as
`Except.error`. -/
def rebaseTransactions (tA tB : Transaction) :
    Except String (Option (Transaction × Transaction)) :=
  let a := tA.clone
  let b := tB.clone
  let infoA := getActiveRangeAndLengthDiff a
  let infoB := getActiveRangeAndLengthDiff b
  if infoA.startO = none ∨ infoB.startO = none then do
    let aOps ← adjustRetain a.operations true infoB.diff
    let bOps ← adjustRetain b.operations true infoA.diff
    .ok (some ({ a with operations := aOps }, { b with operations := bOps }))
  else if jsLe infoA.endO infoB.startO then do
    let bOps ← adjustRetain b.operations true infoA.diff
    let aOps ← adjustRetain a.operations false infoB.diff
    .ok (some ({ a with operations := aOps }, { b with operations := bOps }))
  else if jsLe infoB.endO infoA.startO then do
    let aOps ← adjustRetain a.operations true infoB.diff
    let bOps ← adjustRetain b.operations false infoA.diff
    .ok (some ({ a with operations := aOps }, { b with operations := bOps }))
  else
    .ok none

/-- JS `Array.prototype.slice(s, e)` on in-range arguments (negative
indexes clamp to 0, as `Int.toNat` does). -/
def jsSlice (l : List α) (s e : Int) : List α :=
  (l.take e.toNat).drop s.toNat

/-- A node record returned by the `selectNodes(range, "covered")`
collaborator. Modelled from the spec: each selected node carries the
optional partial-coverage `range`, its `nodeRange` and `nodeOuterRange`,
and whether `node.isContent()`. -/
structure SelNode where
  range : Option Range
  nodeRange : Range
  nodeOuterRange : Range
  isContent : Bool
deriving DecidableEq, Repr

/-- Result of the `fixupInsertion` collaborator. Modelled from the spec:
`{offset, remove, data, insertedDataOffset, insertedDataLength}`. -/
structure Insertion where
  offset : Int
  remove : Int
  data : List Item
  insertedDataOffset : Option Int
  insertedDataLength : Option Int

/-- The `ve.dm.Document` collaborator (plus the `NodeFactory` and
`MetaLinearData` collaborators). Modelled from the spec: the linear data
and the per-offset metadata cells are explicit; `selectNodes`,
`canBeMergedWith`, `isNodeDeletable`, `fixupInsertion` and the
metadata-merge rule are oracle function fields; `internalListStart` is
`doc.getInternalList().getListNode().getOuterRange().start`. -/
structure Doc where
  data : List Item
  metadata : List Cell
  selectNodesCovered : Range → List SelNode
  canBeMergedWith : SelNode → SelNode → Bool
  isNodeDeletable : String → Bool
  fixupInsertion : List Item → Int → Insertion
  metaMerge : List Cell → List Cell
  internalListStart : Int

/-- `doc.getData(range)`: slice of the linear data. -/
def Doc.getData (doc : Doc) (r : Range) : List Item :=
  jsSlice doc.data r.start r.endPos

/-- `doc.getMetadata(range)`: slice of the metadata cells. -/
def Doc.getMetadataRange (doc : Doc) (r : Range) : List Cell :=
  jsSlice doc.metadata r.start r.endPos

/-- `doc.data[i]` (undefined out of range). -/
def Doc.itemAt (doc : Doc) (i : Int) : Option Item :=
  if 0 ≤ i then doc.data.get? i.toNat else none

/-- `doc.metadata.getData(offset) || []`: the metadata cell at a data
offset, empty when out of range. -/
def Doc.metaCellAt (doc : Doc) (offset : Int) : Cell :=
  if 0 ≤ offset then doc.metadata.getD offset.toNat [] else []

/-- Result monad for the builder primitives: a thrown `Error` carries its
message together with the transaction's operations list at the moment of
the throw. -/
abbrev TxE (α : Type) := Except (String × List Op) α

/-- `ve.dm.Transaction.prototype.pushRetain`: reject negative lengths, drop
zero, coalesce with a trailing `retain`. -/
def pushRetain (length : Int) (ops : List Op) : TxE (List Op) :=
  if length < 0 then
    .error ("Invalid retain length, cannot retain backwards:" ++ toString length, ops)
  else if length = 0 then .ok ops
  else
    match ops.getLast? with
    | some (Op.retain l) => .ok (ops.dropLast ++ [Op.retain (l + length)])
    | _ => .ok (ops ++ [Op.retain length])

/-- `ve.dm.Transaction.prototype.pushRetainMetadata`: analogous to
`pushRetain`. -/
def pushRetainMetadata (length : Int) (ops : List Op) : TxE (List Op) :=
  if length < 0 then
    .error ("Invalid retain length, cannot retain backwards:" ++ toString length, ops)
  else if length = 0 then .ok ops
  else
    match ops.getLast? with
    | some (Op.retainMetadata l) => .ok (ops.dropLast ++ [Op.retainMetadata (l + length)])
    | _ => .ok (ops ++ [Op.retainMetadata length])

/-- `ve.dm.Transaction.prototype.pushReplaceMetadata`: skip the no-op,
otherwise append. -/
def pushReplaceMetadata (remove insert : List Meta) (ops : List Op) : List Op :=
  if remove = [] ∧ insert = [] then ops
  else ops ++ [Op.replaceMetadata remove insert]

/-- `ve.dm.Transaction.prototype.pushReplaceElementAttribute`. -/
def pushReplaceElementAttribute (key : String) (fromVal toVal : Option String)
    (ops : List Op) : List Op :=
  ops ++ [Op.attr key fromVal toVal]

/-- `ve.dm.Transaction.prototype.pushReplaceInternal`: skip the total
no-op; attach the metadata fields only when both are defined, and the
inserted-data markers only when both are defined. -/
def pushReplaceInternal (remove insert : List Item)
    (removeMetadata insertMetadata : Option (List Cell))
    (ido idl : Option Int) (ops : List Op) : List Op :=
  if remove = [] ∧ insert = [] then ops
  else
    let md : Option (List Cell) × Option (List Cell) :=
      match removeMetadata, insertMetadata with
      | some r, some i => (some r, some i)
      | _, _ => (none, none)
    let marks : Option Int × Option Int :=
      match ido, idl with
      | some o, some l => (some o, some l)
      | _, _ => (none, none)
    ops ++ [Op.replace remove insert md.1 md.2 marks.1 marks.2]

/-- Are all metadata cells empty? This is the `ve.compare(cells, [])`
emptiness test used by `pushReplace` (JS `undefined` holes count as
empty). -/
def cellsAllEmpty (cells : List Cell) : Bool :=
  cells.all (fun c => c = [])

/-- The decision tail of `ve.dm.Transaction.prototype.pushReplace`, after
the metadata preprocessing and the merged-metadata pop, parameterized by
the recursive call `recur`: the two coalescing self-calls, the
replace-after-replaceMetadata throw, and the plain append with the
optional trailing `replaceMetadata` for `extraMetadata`. A JS
`new Array(n)` with negative `n` (reachable in the first coalescing path)
is modelled as the `Invalid array length` error. -/
def pushReplaceCore
    (recur : Int → Int → List Item → Option (List Cell) → Option Int →
      Option Int → List Op → TxE (List Op))
    (offset removeLength : Int) (insert remove : List Item)
    (removeMetadata : List Cell) (im1 : Option (List Cell))
    (extraM : Option Cell) (isInsEmpty : Bool) (mergedMetadata : List Cell)
    (ido idl : Option Int) (ops1 : List Op) : TxE (List Op) :=
  match ops1.getLast? with
  | some (Op.replace lrem lins lrm lim lido _) =>
    if (¬ (lins ≠ [] ∧ im1.isSome)) ∧ lido = none ∧ extraM = none ∧
        (¬ (mergedMetadata ≠ [] ∧ im1.isSome ∧ isInsEmpty = false)) then
      -- simple coalescing with the previous replace
      (if im1 = none ∨ isInsEmpty = true then
        (if (insert.length : Int) - (mergedMetadata.length : Int) < 0 then
          Except.error (("Invalid array length" : String), ops1.dropLast)
        else
          Except.ok (List.replicate (insert.length - mergedMetadata.length) ([] : Cell)))
      else Except.ok (im1.getD [])) >>= fun pad =>
        recur (offset - lrem.length) (lrem.length + removeLength)
          (lins ++ insert)
          (some ((lim.getD (List.replicate lins.length ([] : Cell))) ++ mergedMetadata ++ pad))
          ido idl ops1.dropLast
    else if lins = [] ∧ insert = [] ∧ (lrm = none ∨ mergedMetadata ≠ []) ∧
        (im1 = none ∨ extraM.isSome) then
      -- coalesce a remove-after-remove
      recur (offset - lrem.length) (lrem.length + removeLength)
        [] none none none ops1.dropLast
    else
      let ops2 := pushReplaceInternal remove insert (some removeMetadata) im1 ido idl ops1
      .ok (match extraM with
        | some em => pushReplaceMetadata [] em ops2
        | none => ops2)
  | some (Op.replaceMetadata _ _) =>
    .error ("replace after replaceMetadata not allowed", ops1)
  | _ =>
    let ops2 := pushReplaceInternal remove insert (some removeMetadata) im1 ido idl ops1
    .ok (match extraM with
      | some em => pushReplaceMetadata [] em ops2
      | none => ops2)

/-- `ve.dm.Transaction.prototype.pushReplace`, with explicit fuel (the
wrapper `pushReplace` supplies `ops.length + 1`, which always suffices
because every self-call pops at least one operation). Faithful to the
source: metadata collapsing via the `MetaLinearData` merge oracle, then
the merged-metadata pop, then the `pushReplaceCore` decision tail. -/
def pushReplaceF (doc : Doc) : Nat → Int → Int → List Item → Option (List Cell) →
    Option Int → Option Int → List Op → TxE (List Op)
  | 0, _, _, _, _, _, _, ops => .error ("pushReplace: out of fuel", ops)
  | fuel + 1, offset, removeLength, insert, insertMetadata, ido, idl, ops =>
    if removeLength = 0 ∧ insert = [] then .ok ops
    else
      let range : Range := { start := offset, endPos := offset + removeLength }
      let remove := doc.getData range
      let removeMetadata := doc.getMetadataRange range
      let isRemoveEmpty := cellsAllEmpty removeMetadata
      -- metadata preprocessing: final values of the JS locals
      -- `insertMetadata`, `extraMetadata`, `isInsertEmpty`
      let stage1 : Option (List Cell) × Option Cell × Bool :=
        match insertMetadata with
        | none =>
          if isRemoveEmpty then (none, none, false)
          else
            let merged := doc.metaMerge removeMetadata
            if insert = [] then (some [], merged.head?, true)
            else
              let padded := merged.take 1 ++
                List.replicate (insert.length - 1) ([] : Cell) ++ merged.drop 1
              (some padded, none, cellsAllEmpty padded)
        | some im =>
          if cellsAllEmpty im ∧ isRemoveEmpty then (none, none, true)
          else (some im, none, cellsAllEmpty im)
      -- merged-metadata pop: [.., replace(insert = []), replaceMetadata(insert ≠ [], remove = [])]
      let popped : List Cell × List Op :=
        match ops.getLast?, ops.dropLast.getLast? with
        | some (Op.replaceMetadata rm ri), some (Op.replace _ pins _ _ _ _) =>
          if ri ≠ [] ∧ rm = [] ∧ pins = [] then ([ri], ops.dropLast) else ([], ops)
        | _, _ => ([], ops)
      pushReplaceCore (pushReplaceF doc fuel) offset removeLength insert remove
        removeMetadata stage1.1 stage1.2.1 stage1.2.2 popped.1 ido idl popped.2

/-- `ve.dm.Transaction.prototype.pushReplace` (fuel wrapper). -/
def pushReplace (doc : Doc) (offset removeLength : Int) (insert : List Item)
    (insertMetadata : Option (List Cell)) (ido idl : Option Int)
    (ops : List Op) : TxE (List Op) :=
  pushReplaceF doc (ops.length + 1) offset removeLength insert insertMetadata ido idl ops

/-- Loop state of `ve.dm.Transaction.prototype.addSafeRemoveOps`. -/
structure SafeRemoveState where
  removeStart : Int
  retainStart : Int
  queuedRetain : Option Int
  depth : Int
  ops : List Op

/-- The `for` loop of `addSafeRemoveOps`, iterating `i` from the original
`removeStart` up to `removeEnd` with a stack counter for undeletable
nodes. -/
def addSafeRemoveOpsLoop (doc : Doc) (removeMetadata : Bool) :
    Nat → Int → SafeRemoveState → TxE SafeRemoveState
  | 0, _, st => .ok st
  | n + 1, i, st =>
    (match doc.itemAt i with
      | some (Item.openEl t _) =>
        if doc.isNodeDeletable t then Except.ok st
        else if st.depth = 0 then
          (match st.queuedRetain with
            | some q => if q = 0 then Except.ok st.ops else pushRetain q st.ops
            | none => Except.ok st.ops) >>= fun ops1 =>
          pushReplace doc st.removeStart (i - st.removeStart) []
            (if removeMetadata then some [] else none) none none ops1 >>= fun ops2 =>
          Except.ok { st with ops := ops2, retainStart := i, depth := st.depth + 1 }
        else Except.ok { st with depth := st.depth + 1 }
      | some (Item.closeEl t) =>
        if doc.isNodeDeletable t then Except.ok st
        else
          let d := st.depth - 1
          if d = 0 then
            Except.ok
              { st with
                  depth := d
                  queuedRetain := some (i + 1 - st.retainStart)
                  removeStart := i + 1 }
          else Except.ok { st with depth := d }
      | _ => Except.ok st) >>= fun st' =>
    addSafeRemoveOpsLoop doc removeMetadata n (i + 1) st'

/-- `ve.dm.Transaction.prototype.addSafeRemoveOps`: remove a range while
retaining undeletable opener/closer pairs; returns the new operations list
and the actual end offset reached (`retainStart`). -/
def addSafeRemoveOps (doc : Doc) (removeStart removeEnd : Int)
    (removeMetadata : Bool) (ops : List Op) : TxE (List Op × Int) :=
  addSafeRemoveOpsLoop doc removeMetadata (removeEnd - removeStart).toNat
    removeStart
    { removeStart := removeStart, retainStart := removeStart,
      queuedRetain := none, depth := 0, ops := ops } >>= fun st =>
  if removeEnd - st.removeStart ≠ 0 then
    (match st.queuedRetain with
      | some q => if q = 0 then Except.ok st.ops else pushRetain q st.ops
      | none => Except.ok st.ops) >>= fun ops1 =>
    pushReplace doc st.removeStart (removeEnd - st.removeStart) []
      (if removeMetadata then some [] else none) none none ops1 >>= fun ops2 =>
    .ok (ops2, removeEnd)
  else .ok (st.ops, st.retainStart)

/-- The per-node loop of the non-merge branch of
`ve.dm.Transaction.prototype.pushRemoval`, coalescing contiguous
removals. State: current offset, the pending `(removeStart, removeEnd)`
if any, and the operations list. -/
def pushRemovalLoop (doc : Doc) (removeMetadata : Bool) :
    List SelNode → Int × Option (Int × Int) × List Op →
    TxE (Int × Option (Int × Int) × List Op)
  | [], st => .ok st
  | sel :: rest, (offsetA, rse, ops) =>
    let bounds : Int × Int :=
      match sel.range with
      | none => (sel.nodeOuterRange.start, sel.nodeOuterRange.endPos)
      | some r => (r.start, r.endPos)
    let nodeStart := bounds.1
    let nodeEnd := bounds.2
    match rse with
    | none => pushRemovalLoop doc removeMetadata rest (offsetA, some (nodeStart, nodeEnd), ops)
    | some (rs, re) =>
      if re = nodeStart then
        pushRemovalLoop doc removeMetadata rest (offsetA, some (rs, nodeEnd), ops)
      else do
        let ops1 ← pushRetain (rs - offsetA) ops
        let r2 ← addSafeRemoveOps doc rs re removeMetadata ops1
        pushRemovalLoop doc removeMetadata rest (r2.2, some (nodeStart, nodeEnd), r2.1)

/-- `ve.dm.Transaction.prototype.pushRemoval`: early return for a collapsed
range; otherwise select covered nodes (`Invalid range` when empty), merge
the endpoints when `canBeMergedWith`, else strip/remove each node with
contiguous-removal coalescing. Returns the new operations list and the end
offset of the removal. -/
def pushRemoval (doc : Doc) (currentOffset : Int) (range : Range)
    (removeMetadata : Bool) (ops : List Op) : TxE (List Op × Int) :=
  if range.isCollapsed then do
    let ops1 ← pushRetain (range.start - currentOffset) ops
    .ok (ops1, range.start)
  else
    match doc.selectNodesCovered range with
    | [] =>
      .error ("Invalid range, cannot remove from " ++ toString range.start ++
        " to " ++ toString range.endPos, ops)
    | first :: restSel =>
      let last := List.getLastD (first :: restSel) first
      if doc.canBeMergedWith first last then
        let bounds : Int × Int :=
          match first.range, last.range with
          | none, none => (first.nodeOuterRange.start, last.nodeOuterRange.endPos)
          | fr, lr =>
            ((fr.getD (if first.isContent then first.nodeOuterRange else first.nodeRange)).start,
             (lr.getD (if last.isContent then last.nodeOuterRange else last.nodeRange)).endPos)
        do
          let ops1 ← pushRetain (bounds.1 - currentOffset) ops
          let r2 ← addSafeRemoveOps doc bounds.1 bounds.2 removeMetadata ops1
          .ok (r2.1, r2.2)
      else do
        let st ← pushRemovalLoop doc removeMetadata (first :: restSel) (currentOffset, none, ops)
        match st.2.1 with
        | some (rs, re) => do
          let ops1 ← pushRetain (rs - st.1) st.2.2
          let r2 ← addSafeRemoveOps doc rs re removeMetadata ops1
          .ok (r2.1, r2.2)
        | none => .ok (st.2.2, st.1)

/-- `ve.dm.Transaction.prototype.pushInsertion`: fix up the insertion via
the collaborator, retain to the insertion point, push the replace; returns
the new operations list and the end offset. -/
def pushInsertion (doc : Doc) (currentOffset insertOffset : Int)
    (data : List Item) (ops : List Op) : TxE (List Op × Int) := do
  let insertion := doc.fixupInsertion data insertOffset
  let ops1 ← pushRetain (insertion.offset - currentOffset) ops
  let ops2 ← pushReplace doc insertion.offset insertion.remove insertion.data none
    insertion.insertedDataOffset insertion.insertedDataLength ops1
  .ok (ops2, insertion.offset + insertion.remove)

/-- `ve.dm.Transaction.prototype.pushFinalRetain`: retain to the end of the
data and, when the trailing metadata cell is non-empty, retain the rest of
it. -/
def pushFinalRetain (doc : Doc) (offset : Int) (metaOffset : Option Int)
    (ops : List Op) : TxE (List Op) :=
  let dataLen : Int := doc.data.length
  let finalMetadata := doc.metadata.getD doc.data.length []
  (if offset < dataLen then
    pushRetain (dataLen - offset) ops >>= fun o => Except.ok (o, (0 : Int))
  else Except.ok (ops, metaOffset.getD 0)) >>= fun r1 =>
  if finalMetadata ≠ [] then pushRetainMetadata ((finalMetadata.length : Int) - r1.2) r1.1
  else .ok r1.1

/-- The empty-paragraph data inserted by the document-non-emptiness rule of
`ve.dm.Transaction.newFromRemoval`. -/
def paraData : List Item :=
  [Item.openEl "paragraph" [], Item.closeEl "paragraph"]

/-- `ve.dm.Transaction.newFromRemoval`: push the removal, insert an empty
paragraph when the removal spans from offset 0 to at least the start of the
internal list, and retain to the end. -/
def newFromRemoval (doc : Doc) (range : Range) (removeMetadata : Bool) :
    TxE Transaction := do
  let r1 ← pushRemoval doc 0 range removeMetadata []
  let r2 ←
    if range.start = 0 ∧ doc.internalListStart ≤ range.endPos then
      pushInsertion doc r1.2 r1.2 paraData r1.1
    else Except.ok r1
  let ops3 ← pushFinalRetain doc r2.2 none r2.1
  .ok { operations := ops3, applied := false }

/-- `ve.dm.Transaction.newFromMetadataRemoval`: error on an empty cell,
error on an out-of-bounds range, no-op on an empty selection, otherwise
retain to the cell, remove the selected metadata elements, and retain to
the end. -/
def newFromMetadataRemoval (doc : Doc) (offset : Int) (range : Range) :
    TxE Transaction :=
  let elements := doc.metaCellAt offset
  if elements = [] then .error ("Cannot remove metadata from empty list", [])
  else if range.start < 0 ∨ range.endPos > (elements.length : Int) then
    .error ("Range out of bounds", [])
  else
    let selection := jsSlice elements range.start range.endPos
    if selection = [] then .ok { operations := [], applied := false }
    else do
      let ops1 ← pushRetain offset []
      let ops2 ← pushRetainMetadata range.start ops1
      let ops3 := pushReplaceMetadata selection [] ops2
      let ops4 ← pushRetainMetadata ((elements.length : Int) - range.endPos) ops3
      let ops5 ← pushFinalRetain doc offset (some (elements.length : Int)) ops4
      .ok { operations := ops5, applied := false }

/-- `ve.dm.Transaction.newFromMetadataElementReplacement`: error when
`index >= elements.length`, otherwise retain to the cell and the sub-index
and replace the single element. -/
def newFromMetadataElementReplacement (doc : Doc) (offset index : Int)
    (newElement : Meta) : TxE Transaction :=
  let elements := doc.metaCellAt offset
  if index ≥ (elements.length : Int) then .error ("Metadata index out of bounds", [])
  else
    let oldElement := elements.getD index.toNat ""
    do
      let ops1 ← pushRetain offset []
      let ops2 ← pushRetainMetadata index ops1
      let ops3 := pushReplaceMetadata [oldElement] [newElement] ops2
      let ops4 ← pushRetainMetadata ((elements.length : Int) - index - 1) ops3
      let ops5 ← pushFinalRetain doc offset (some (elements.length : Int)) ops4
      .ok { operations := ops5, applied := false }

/-- Do all `retain` operations in the list have a non-negative length
(spec invariant I3)? -/
def retainsNonneg : List Op → Bool
  | [] => true
  | Op.retain n :: rest => decide (0 ≤ n) && retainsNonneg rest
  | _ :: rest => retainsNonneg rest

/-- Does offset `o` lie in the (closed) source-coordinate region touched by
some `replace` operation - the removed range together with its boundary
insertion points? Scanning from `cursor`, a `replace` occupies
`[cursor, cursor + remove.length]`. -/
def touchesReplace (o : Int) : List Op → Int → Bool
  | [], _ => false
  | op :: rest, cursor =>
    match op with
    | .replace remove _ _ _ _ _ =>
      (decide (cursor ≤ o) && decide (o ≤ cursor + remove.length)) ||
        touchesReplace o rest (cursor + remove.length)
    | .retain len => touchesReplace o rest (cursor + len)
    | _ => touchesReplace o rest cursor

/-- The cumulative length adjustment of a transaction at source offset `o`:
walk the operations accumulating `insert.length - remove.length`, stopping
at the retain span containing `o`. Only meaningful for offsets not touched
by a `replace`. -/
def adjAt (o : Int) : List Op → Int → Int → Int
  | [], _, a => a
  | op :: rest, c, a =>
    match op with
    | .retain len => if o < c + len then a else adjAt o rest (c + len) a
    | .replace remove insert _ _ _ _ =>
        adjAt o rest (c + remove.length) (a + insert.length - remove.length)
    | _ => adjAt o rest c a

/-- Every `replace` operation in the list has an empty insert: the shape of
a pure removal's operations (claim C5's no-insertion property). -/
def emptyInsertOnly (ops : List Op) : Prop :=
  ∀ op ∈ ops, ∀ rem ins rmeta imeta ido idl,
    op = Op.replace rem ins rmeta imeta ido idl → ins = []

/-- The operation shapes produced by a removal on a metadata-free document:
only retains and bare removals. -/
def cleanShape (ops : List Op) : Prop :=
  ∀ op ∈ ops, (∃ n, op = Op.retain n) ∨
    (∃ rem, op = Op.replace rem [] none none none none)

/-- An absent or all-empty insert-metadata argument. -/
def emptyish (im : Option (List Cell)) : Prop :=
  im = none ∨ ∃ cs, im = some cs ∧ cellsAllEmpty cs = true

/-- Heap model for the object-identity claims about
`ve.dm.Transaction.rebaseTransactions`: transactions live in an arena
(list) of slots, references are slot indexes, `clone()` allocates a fresh
slot, and `adjustRetain` mutates the clone's slot in place. Follows the
source: clone both inputs, compute the active infos from the clones, then
adjust retains on the clones only. Returns the new arena and the references
of the two results (`none` models the `[null, null]` conflict result). -/
def rebaseH (arena : List Transaction) (ia ib : Nat) :
    Except String (List Transaction × Option (Nat × Nat)) :=
  let A := arena.getD ia { operations := [], applied := false }
  let B := arena.getD ib { operations := [], applied := false }
  let ca := arena.length
  let arena1 := arena ++ [A.clone]
  let cb := arena1.length
  let arena2 := arena1 ++ [B.clone]
  let infoA := getActiveRangeAndLengthDiff
    (arena2.getD ca { operations := [], applied := false })
  let infoB := getActiveRangeAndLengthDiff
    (arena2.getD cb { operations := [], applied := false })
  if infoA.startO = none ∨ infoB.startO = none then do
    let aOps ← adjustRetain A.operations true infoB.diff
    let bOps ← adjustRetain B.operations true infoA.diff
    .ok ((arena2.set ca { operations := aOps, applied := false }).set cb
      { operations := bOps, applied := false }, some (ca, cb))
  else if jsLe infoA.endO infoB.startO then do
    let bOps ← adjustRetain B.operations true infoA.diff
    let aOps ← adjustRetain A.operations false infoB.diff
    .ok ((arena2.set cb { operations := bOps, applied := false }).set ca
      { operations := aOps, applied := false }, some (ca, cb))
  else if jsLe infoB.endO infoA.startO then do
    let aOps ← adjustRetain A.operations true infoB.diff
    let bOps ← adjustRetain B.operations false infoA.diff
    .ok ((arena2.set ca { operations := aOps, applied := false }).set cb
      { operations := bOps, applied := false }, some (ca, cb))
  else
    .ok (arena2, none)

/-- The error message of a constructor result, if any. -/
def errMsg (r : TxE Transaction) : Option String :=
  match r with
  | .error (m, _) => some m
  | .ok _ => none

/-- A concrete document for witnesses: explicit data/metadata, with oracle
fields that return nothing selectable, nothing mergeable, everything
deletable, identity insertion fixup, and trivial metadata merge. -/
def mkWitnessDoc (data : List Item) (metadata : List Cell) (ils : Int) : Doc :=
  { data := data
    metadata := metadata
    selectNodesCovered := fun _ => []
    canBeMergedWith := fun _ _ => false
    isNodeDeletable := fun _ => true
    fixupInsertion := fun d off =>
      { offset := off, remove := 0, data := d
        insertedDataOffset := none, insertedDataLength := none }
    metaMerge := fun _ => []
    internalListStart := ils }

/-- Witness document over two characters with empty metadata. -/
def wDocAB : Doc :=
  mkWitnessDoc [Item.char "a" [], Item.char "b" []] [[], [], []] 0

/-- Witness document with a non-empty metadata cell at offset 0. -/
def wDocMeta : Doc :=
  mkWitnessDoc [Item.char "a" [], Item.char "b" []] [["m"], [], []] 0

/-- Witness document: empty data, one trailing empty metadata cell,
internal list starting at 0. -/
def wDocEmpty : Doc :=
  mkWitnessDoc [] [[]] 0

/-- Witness document over two characters whose internal list starts at
offset 2. -/
def wDocIls2 : Doc :=
  mkWitnessDoc [Item.char "a" [], Item.char "b" []] [[], [], []] 2

/-- Witness transaction: retain 2, replace one character by two, retain 3. -/
def wTxA : Transaction :=
  { operations := [Op.retain 2,
      Op.replace [Item.char "a" []] [Item.char "x" [], Item.char "y" []] none none none none,
      Op.retain 3]
    applied := false }

/-- Witness transaction: retain 10, remove one character. -/
def wTxB : Transaction :=
  { operations := [Op.retain 10,
      Op.replace [Item.char "b" []] [] none none none none]
    applied := false }

/-!
### Theorems

Helper lemmas come first; each claim is settled by exactly one theorem
(with a witness or counterexample where required).
-/

/-- Reversal is an involution on single operations. -/
theorem reverseOp_reverseOp (op : Op) : reverseOp (reverseOp op) = op := by
  cases op with
  | retain n => rfl
  | retainMetadata n => rfl
  | replace a b c d e f => rfl
  | replaceMetadata a b => rfl
  | attr k f t => rfl
  | annotate m b i => cases m <;> rfl

/-- Reversal is an involution on operation lists. -/
theorem map_reverseOp_involutive (l : List Op) :
    (l.map reverseOp).map reverseOp = l := by
  induction l with
  | nil => rfl
  | cons op rest ih => simp [reverseOp_reverseOp, ih]

/-- C2: for every transaction `t`, `t.reversed().reversed()` has an
operations list equal op-for-op to `t`'s operations list (the `applied`
flag is not required to match). -/
theorem C2_reversed_reversed_ops (t : Transaction) :
    t.reversed.reversed.operations = t.operations :=
  map_reverseOp_involutive t.operations

/-- C3: `reversed()` produces exactly one reversed operation per original
operation, in order, transformed per variant: `annotate` swaps `set`/`clear`
keeping `bias`; `attribute` swaps `from`/`to`; `replace` swaps
`insert`/`remove` and `insertMetadata`/`removeMetadata`; `replaceMetadata`
swaps `insert`/`remove`; `retain` and `retainMetadata` are copied
verbatim. -/
theorem C3_reversed_pointwise (t : Transaction) :
    t.reversed.operations = t.operations.map (fun op =>
      match op with
      | Op.annotate m b i =>
          Op.annotate (match m with | Method.set => Method.clear | Method.clear => Method.set) b i
      | Op.attr k f tv => Op.attr k tv f
      | Op.replace rem ins rmeta imeta ido idl => Op.replace ins rem imeta rmeta ido idl
      | Op.replaceMetadata rem ins => Op.replaceMetadata ins rem
      | Op.retain n => Op.retain n
      | Op.retainMetadata n => Op.retainMetadata n) := by
  have h : reverseOp = (fun op =>
      match op with
      | Op.annotate m b i =>
          Op.annotate (match m with | Method.set => Method.clear | Method.clear => Method.set) b i
      | Op.attr k f tv => Op.attr k tv f
      | Op.replace rem ins rmeta imeta ido idl => Op.replace ins rem imeta rmeta ido idl
      | Op.replaceMetadata rem ins => Op.replaceMetadata ins rem
      | Op.retain n => Op.retain n
      | Op.retainMetadata n => Op.retainMetadata n) := by
    funext op
    cases op with
    | retain n => rfl
    | retainMetadata n => rfl
    | replace a b c d e f => rfl
    | replaceMetadata a b => rfl
    | attr k f t => rfl
    | annotate m b i => cases m <;> rfl
  show t.operations.map reverseOp = _
  rw [h]

/-- C7: `translateRange(r, excludeInsertion)` translates `r.start` with
`!excludeInsertion` and `r.end` with `excludeInsertion`, and constructs the
result backwards exactly when the input range is backwards
(`start > end`). -/
theorem C7_translateRange (t : Transaction) (r : Range) (excludeInsertion : Bool) :
    t.translateRange r excludeInsertion =
      (if r.start > r.endPos then
        { start := t.translateOffset r.endPos excludeInsertion
          endPos := t.translateOffset r.start (!excludeInsertion) }
      else
        { start := t.translateOffset r.start (!excludeInsertion)
          endPos := t.translateOffset r.endPos excludeInsertion }) := by
  unfold Transaction.translateRange Range.isBackwards
  by_cases h : r.start > r.endPos <;> simp [h]

/-- One `getActiveRangeAndLengthDiff` step preserves: a placed start marker
comes with a placed end marker. -/
theorem garStep_invariant (s : GarState) (op : Op)
    (h : s.startO.isSome → s.endO.isSome) :
    (garStep s op).startO.isSome → (garStep s op).endO.isSome := by
  cases op with
  | annotate m b i => simpa [garStep] using h
  | attr k f t => intro _; simp [garStep]
  | replaceMetadata a b => intro _; simp [garStep]
  | replace a b c d e f => intro _; simp [garStep, Op.isRetainLike]
  | retain n =>
      intro hs
      by_cases h1 : 0 < s.annotations
      · simp [garStep, Op.isRetainLike, h1]
      · simp [garStep, Op.isRetainLike, h1] at hs ⊢
        exact h hs
  | retainMetadata n =>
      intro hs
      by_cases h1 : 0 < s.annotations
      · simp [garStep, Op.isRetainLike, h1]
      · simp [garStep, Op.isRetainLike, h1] at hs ⊢
        exact h hs

/-- The `getActiveRangeAndLengthDiff` fold preserves the start/end marker
invariant. -/
theorem gar_fold_invariant (l : List Op) (s : GarState)
    (h : s.startO.isSome → s.endO.isSome) :
    (l.foldl garStep s).startO.isSome → (l.foldl garStep s).endO.isSome := by
  induction l generalizing s with
  | nil => simpa using h
  | cons op rest ih => exact ih _ (garStep_invariant s op h)

/-- If a transaction's active range has a start, it has an end. -/
theorem gar_endO_isSome (t : Transaction)
    (h : (getActiveRangeAndLengthDiff t).startO.isSome) :
    (getActiveRangeAndLengthDiff t).endO.isSome := by
  unfold getActiveRangeAndLengthDiff at h ⊢
  exact gar_fold_invariant t.operations _ (by simp) h

/-- Cloning does not change the active range. -/
theorem gar_clone (t : Transaction) :
    getActiveRangeAndLengthDiff t.clone = getActiveRangeAndLengthDiff t := rfl

/-- The active range only depends on the operations list. -/
theorem gar_mk_ops (t : Transaction) :
    getActiveRangeAndLengthDiff { operations := t.operations, applied := false } =
      getActiveRangeAndLengthDiff t := rfl

/-- `jsLe` on two defined numbers is `≤`. -/
theorem jsLe_some (x y : Int) : jsLe (some x) (some y) = decide (x ≤ y) := rfl

/-- C1: for parallel transactions with defined active ranges, when
`infoA.end ≤ infoB.start` `rebaseTransactions(A, B)` adjusts `B`'s leading
retain by `+infoA.diff` and `A`'s trailing retain by `+infoB.diff`
(symmetrically when `infoB.end ≤ infoA.start`), and when the active ranges
overlap it returns `[null, null]` (modelled `some`/`none`) as a
first-class result rather than raising an error. -/
theorem C1_rebaseTransactions_spec (A B : Transaction) (sa sb : Int)
    (hA : (getActiveRangeAndLengthDiff A).startO = some sa)
    (hB : (getActiveRangeAndLengthDiff B).startO = some sb) :
    ∃ ea eb, (getActiveRangeAndLengthDiff A).endO = some ea ∧
      (getActiveRangeAndLengthDiff B).endO = some eb ∧
      (ea ≤ sb →
        rebaseTransactions A B = (do
          let bOps ← adjustRetain B.operations true (getActiveRangeAndLengthDiff A).diff
          let aOps ← adjustRetain A.operations false (getActiveRangeAndLengthDiff B).diff
          Except.ok (some ({ operations := aOps, applied := false },
            { operations := bOps, applied := false })))) ∧
      (¬ (ea ≤ sb) → eb ≤ sa →
        rebaseTransactions A B = (do
          let aOps ← adjustRetain A.operations true (getActiveRangeAndLengthDiff B).diff
          let bOps ← adjustRetain B.operations false (getActiveRangeAndLengthDiff A).diff
          Except.ok (some ({ operations := aOps, applied := false },
            { operations := bOps, applied := false })))) ∧
      (¬ (ea ≤ sb) → ¬ (eb ≤ sa) → rebaseTransactions A B = Except.ok none) := by
  obtain ⟨ea, hea⟩ := Option.isSome_iff_exists.mp (gar_endO_isSome A (by simp [hA]))
  obtain ⟨eb, heb⟩ := Option.isSome_iff_exists.mp (gar_endO_isSome B (by simp [hB]))
  refine ⟨ea, eb, hea, heb, ?_, ?_, ?_⟩
  · intro h1
    simp only [rebaseTransactions, Transaction.clone, gar_mk_ops, hA, hB, hea, heb,
      jsLe_some]
    simp [h1]
  · intro h1 h2
    simp only [rebaseTransactions, Transaction.clone, gar_mk_ops, hA, hB, hea, heb,
      jsLe_some]
    simp [h1, h2]
  · intro h1 h2
    simp only [rebaseTransactions, Transaction.clone, gar_mk_ops, hA, hB, hea, heb,
      jsLe_some]
    simp [h1, h2]

/-- C1 witness: the spec applied to a concrete separated pair. -/
theorem C1_witness :
    rebaseTransactions wTxA wTxB = Except.ok (some
      ({ operations := [Op.retain 2,
          Op.replace [Item.char "a" []] [Item.char "x" [], Item.char "y" []] none none none none,
          Op.retain 2], applied := false },
       { operations := [Op.retain 11,
          Op.replace [Item.char "b" []] [] none none none none], applied := false })) := by
  obtain ⟨ea, eb, hea, heb, h1, _, _⟩ :=
    C1_rebaseTransactions_spec wTxA wTxB 2 10 rfl rfl
  have hea3 : ea = 3 := by
    have h3 : (getActiveRangeAndLengthDiff wTxA).endO = some 3 := rfl
    rw [h3] at hea
    exact (Option.some.inj hea).symm
  rw [h1 (by rw [hea3]; decide)]
  rfl

/-- Bind of a successful `Except` computation. -/
theorem except_bind_ok {ε α β : Type} (a : α) (f : α → Except ε β) :
    (Except.ok a >>= f) = f a := rfl

/-- Bind of a failed `Except` computation. -/
theorem except_bind_error {ε α β : Type} (e : ε) (f : α → Except ε β) :
    ((Except.error e : Except ε α) >>= f) = Except.error e := rfl

/-- C8 counterexample: a negative sub-index is outside the cell's element
list, yet `newFromMetadataElementReplacement` raises the negative-retain
error, not `Metadata index out of bounds`. -/
theorem C8_counterexample :
    errMsg (newFromMetadataElementReplacement wDocMeta 0 (-1) "x") =
      some "Invalid retain length, cannot retain backwards:-1" ∧
    ((-1 : Int) < 0 ∧
      "Invalid retain length, cannot retain backwards:-1" ≠
        "Metadata index out of bounds") := by
  exact ⟨rfl, by decide, by decide⟩

/-- C8 (amended): `newFromMetadataRemoval` raises
`Cannot remove metadata from empty list` when the cell at `offset` has no
elements, and `Range out of bounds` when the requested range starts below
zero or ends past the cell; `newFromMetadataElementReplacement` raises
`Metadata index out of bounds` when `index ≥` the cell's length, while a
negative index instead raises the negative-retain error (with the retain
up to `offset` already pushed). -/
theorem C8_metadata_bounds (doc : Doc) (offset : Int) (r : Range) (index : Int)
    (newEl : Meta) :
    (doc.metaCellAt offset = [] →
      newFromMetadataRemoval doc offset r =
        .error ("Cannot remove metadata from empty list", [])) ∧
    (doc.metaCellAt offset ≠ [] →
      (r.start < 0 ∨ r.endPos > ((doc.metaCellAt offset).length : Int)) →
      newFromMetadataRemoval doc offset r = .error ("Range out of bounds", [])) ∧
    (index ≥ ((doc.metaCellAt offset).length : Int) →
      newFromMetadataElementReplacement doc offset index newEl =
        .error ("Metadata index out of bounds", [])) ∧
    (index < 0 → 0 ≤ offset →
      newFromMetadataElementReplacement doc offset index newEl =
        .error ("Invalid retain length, cannot retain backwards:" ++ toString index,
          if offset = 0 then [] else [Op.retain offset])) := by
  refine ⟨?_, ?_, ?_, ?_⟩
  · intro h
    simp [newFromMetadataRemoval, h]
  · intro h1 h2
    simp [newFromMetadataRemoval, h1, h2]
  · intro h
    simp [newFromMetadataElementReplacement, h]
  · intro hidx hoff
    have hlen : (0 : Int) ≤ ((doc.metaCellAt offset).length : Int) := by positivity
    have hlt : ¬ index ≥ ((doc.metaCellAt offset).length : Int) := by omega
    have hnn : ¬ offset < 0 := by omega
    by_cases ho : offset = 0
    · subst ho
      simp only [newFromMetadataElementReplacement] at hlt ⊢
      rw [if_neg hlt]
      simp [pushRetain, pushRetainMetadata, hidx, except_bind_ok, except_bind_error]
    · simp only [newFromMetadataElementReplacement]
      rw [if_neg hlt]
      simp [pushRetain, pushRetainMetadata, hidx, ho, hnn, except_bind_ok,
        except_bind_error]

/-- C8 witness: the amended theorem applied to a concrete empty-cell
document. -/
theorem C8_witness :
    newFromMetadataRemoval wDocAB 0 { start := 0, endPos := 1 } =
      .error ("Cannot remove metadata from empty list", []) :=
  (C8_metadata_bounds wDocAB 0 { start := 0, endPos := 1 } 0 "x").1 rfl

/-- C6 counterexample: two `pushReplace` calls on a builder state ending in
a `replaceMetadata` where the merged-metadata pop applies. With a nonempty
insert the call succeeds (coalescing, no
`replace after replaceMetadata not allowed` error at all); with an empty
insert the call still throws, but a different error (the JS
`new Array(insert.length - mergedMetadata.length)` RangeError
`Invalid array length`) carrying an already-mutated operations list, so
neither "an error is raised" nor "the operations list is left unchanged"
holds unconditionally. -/
theorem C6_counterexample :
    (pushReplace wDocAB 1 1 [Item.char "x" []] none none none
        [Op.replace [Item.char "a" []] [] none none none none,
         Op.replaceMetadata [] ["m"]] =
      Except.ok [Op.replace [Item.char "a" [], Item.char "b" []] [Item.char "x" []]
        (some [[], []]) (some [["m"]]) none none] ∧
    ([Op.replace [Item.char "a" []] [] none none none none,
      Op.replaceMetadata [] ["m"]].getLast? = some (Op.replaceMetadata [] ["m"]))) ∧
    (pushReplace wDocAB 1 1 [] none none none
        [Op.replace [Item.char "a" []] [] none none none none,
         Op.replaceMetadata [] ["m"]] =
      Except.error ("Invalid array length", []) ∧
    ([] : List Op) ≠ [Op.replace [Item.char "a" []] [] none none none none,
      Op.replaceMetadata [] ["m"]]) := by
  exact ⟨⟨rfl, rfl⟩, rfl, by decide⟩

/-- C6 (amended): when the last operation is a `replaceMetadata`, and
neither the total-no-op early return (`removeLength = 0` and empty insert)
nor the merged-metadata pop (trailing `replaceMetadata` with non-empty
insert and empty remove over a penultimate `replace` with empty insert)
applies, `pushReplace` raises
`replace after replaceMetadata not allowed` carrying the operations list
unchanged. Outside these hypotheses the guarantee does not hold: the no-op
returns silently, and the pop path pops the `replaceMetadata` before
deciding, after which the call may succeed or raise other errors
(`Invalid array length`, or this same error deeper in the coalescing
recursion) with the list already mutated - see the counterexample. -/
theorem C6_pushReplace_error (doc : Doc) (offset removeLength : Int)
    (insert : List Item) (im : Option (List Cell)) (ido idl : Option Int)
    (ops : List Op) (rm ri : List Meta)
    (hlast : ops.getLast? = some (Op.replaceMetadata rm ri))
    (hnoop : ¬ (removeLength = 0 ∧ insert = []))
    (hpop : ¬ (ri ≠ [] ∧ rm = [] ∧
      ∃ a c d e f, ops.dropLast.getLast? = some (Op.replace a [] c d e f))) :
    pushReplace doc offset removeLength insert im ido idl ops =
      .error ("replace after replaceMetadata not allowed", ops) := by
  rw [pushReplace]
  rw [show ops.length + 1 = Nat.succ ops.length from rfl]
  rw [pushReplaceF]
  rw [if_neg hnoop]
  rcases hd : ops.dropLast.getLast? with _ | op2
  · simp only [hlast, hd, pushReplaceCore]
  · cases op2 with
    | replace a pins c d e f =>
        have hcond : ¬ (ri ≠ [] ∧ rm = [] ∧ pins = []) := by
          intro hc
          exact hpop ⟨hc.1, hc.2.1, a, c, d, e, f, by rw [hd, hc.2.2]⟩
        simp only [hlast, hd]
        rw [if_neg hcond]
        dsimp only
        simp only [pushReplaceCore, hlast]
    | retain n => simp only [hlast, hd, pushReplaceCore]
    | retainMetadata n => simp only [hlast, hd, pushReplaceCore]
    | replaceMetadata x y => simp only [hlast, hd, pushReplaceCore]
    | attr k fv tv => simp only [hlast, hd, pushReplaceCore]
    | annotate m b i => simp only [hlast, hd, pushReplaceCore]

/-- C6 witness: the amended theorem applied to a concrete builder state. -/
theorem C6_witness :
    pushReplace wDocAB 0 1 [] none none none [Op.replaceMetadata ["m"] []] =
      .error ("replace after replaceMetadata not allowed",
        [Op.replaceMetadata ["m"] []]) :=
  C6_pushReplace_error wDocAB 0 1 [] none none none _ ["m"] [] rfl
    (by decide) (by simp)

/-- Extract the intermediate value of a successful `Except` bind. -/
theorem except_bind_eq_ok {ε α β : Type} {e : Except ε α} {f : α → Except ε β}
    {b : β} (h : (e >>= f) = .ok b) : ∃ a, e = .ok a ∧ f a = .ok b := by
  cases e with
  | error err => exact absurd h (by simp [except_bind_error])
  | ok a => exact ⟨a, rfl, h⟩

/-- Arena slots below the original length are untouched by appending two
slots and setting both of them (first the lower, then the upper). -/
theorem arena_prefix_set_lu (l : List Transaction) (x y u v : Transaction)
    (i : Nat) (hi : i < l.length) :
    (((l ++ [x] ++ [y]).set l.length u).set (l.length + 1) v)[i]? = l[i]? := by
  rw [List.getElem?_set_ne (by omega), List.getElem?_set_ne (by omega),
    List.append_assoc]
  exact List.getElem?_append_left hi

/-- Arena slots below the original length are untouched by appending two
slots and setting both of them (first the upper, then the lower). -/
theorem arena_prefix_set_ul (l : List Transaction) (x y u v : Transaction)
    (i : Nat) (hi : i < l.length) :
    (((l ++ [x] ++ [y]).set (l.length + 1) v).set l.length u)[i]? = l[i]? := by
  rw [List.getElem?_set_ne (by omega), List.getElem?_set_ne (by omega),
    List.append_assoc]
  exact List.getElem?_append_left hi

/-- Arena slots below the original length are untouched by appending two
slots. -/
theorem arena_prefix_app (l : List Transaction) (x y : Transaction)
    (i : Nat) (hi : i < l.length) :
    (l ++ [x] ++ [y])[i]? = l[i]? := by
  rw [List.append_assoc]
  exact List.getElem?_append_left hi

/-- The two fresh arena slots hold the two set values (lower set first). -/
theorem arena_fresh_set_lu (l : List Transaction) (x y u v : Transaction) :
    (((l ++ [x] ++ [y]).set l.length u).set (l.length + 1) v)[l.length]? = some u ∧
    (((l ++ [x] ++ [y]).set l.length u).set (l.length + 1) v)[l.length + 1]? = some v := by
  constructor
  · rw [List.getElem?_set_ne (by omega)]
    exact List.getElem?_set_self (by simp)
  · exact List.getElem?_set_self (by simp)

/-- The two fresh arena slots hold the two set values (upper set first). -/
theorem arena_fresh_set_ul (l : List Transaction) (x y u v : Transaction) :
    (((l ++ [x] ++ [y]).set (l.length + 1) v).set l.length u)[l.length]? = some u ∧
    (((l ++ [x] ++ [y]).set (l.length + 1) v).set l.length u)[l.length + 1]? = some v := by
  constructor
  · exact List.getElem?_set_self (by simp)
  · rw [List.getElem?_set_ne (by omega)]
    exact List.getElem?_set_self (by simp)

/-- C10: `rebaseTransactions` (heap model `rebaseH`) never mutates its
input transactions - the input slots are unchanged after the call - and on
success the two returned references are distinct fresh slots, different
from both inputs, holding transactions with `applied = false`. -/
theorem C10_rebaseH_frame (arena : List Transaction) (ia ib : Nat)
    (hia : ia < arena.length) (hib : ib < arena.length) :
    ∀ arena2 res, rebaseH arena ia ib = .ok (arena2, res) →
      (arena2[ia]? = arena[ia]? ∧ arena2[ib]? = arena[ib]?) ∧
      (∀ ra rb, res = some (ra, rb) →
        (ra ≠ ia ∧ ra ≠ ib ∧ rb ≠ ia ∧ rb ≠ ib ∧ ra ≠ rb) ∧
        ∃ ta tb, arena2[ra]? = some ta ∧ arena2[rb]? = some tb ∧
          ta.applied = false ∧ tb.applied = false) := by
  intro arena2 res hok
  rw [rebaseH] at hok
  simp only [List.length_append, List.length_cons, List.length_nil] at hok
  split at hok
  · obtain ⟨aOps, hr1, hok2⟩ := except_bind_eq_ok hok
    obtain ⟨bOps, hr2, hok3⟩ := except_bind_eq_ok hok2
    obtain ⟨h2, h3⟩ : _ ∧ _ := by
      have := Except.ok.inj hok3
      exact ⟨congrArg Prod.fst this, congrArg Prod.snd this⟩
    subst h2 h3
    refine ⟨⟨arena_prefix_set_lu _ _ _ _ _ _ hia, arena_prefix_set_lu _ _ _ _ _ _ hib⟩, ?_⟩
    intro ra rb hres
    obtain ⟨hra, hrb⟩ : ra = arena.length ∧ rb = arena.length + 1 := by
      have := Option.some.inj hres
      exact ⟨congrArg Prod.fst this |>.symm, congrArg Prod.snd this |>.symm⟩
    subst hra hrb
    refine ⟨⟨by omega, by omega, by omega, by omega, by omega⟩, ?_⟩
    obtain ⟨hu, hv⟩ := arena_fresh_set_lu arena _ _
      { operations := aOps, applied := false } { operations := bOps, applied := false }
    exact ⟨_, _, hu, hv, rfl, rfl⟩
  · split at hok
    · obtain ⟨bOps, hr1, hok2⟩ := except_bind_eq_ok hok
      obtain ⟨aOps, hr2, hok3⟩ := except_bind_eq_ok hok2
      obtain ⟨h2, h3⟩ : _ ∧ _ := by
        have := Except.ok.inj hok3
        exact ⟨congrArg Prod.fst this, congrArg Prod.snd this⟩
      subst h2 h3
      refine ⟨⟨arena_prefix_set_ul _ _ _ _ _ _ hia, arena_prefix_set_ul _ _ _ _ _ _ hib⟩, ?_⟩
      intro ra rb hres
      obtain ⟨hra, hrb⟩ : ra = arena.length ∧ rb = arena.length + 1 := by
        have := Option.some.inj hres
        exact ⟨congrArg Prod.fst this |>.symm, congrArg Prod.snd this |>.symm⟩
      subst hra hrb
      refine ⟨⟨by omega, by omega, by omega, by omega, by omega⟩, ?_⟩
      obtain ⟨hu, hv⟩ := arena_fresh_set_ul arena _ _
        { operations := aOps, applied := false } { operations := bOps, applied := false }
      exact ⟨_, _, hu, hv, rfl, rfl⟩
    · split at hok
      · obtain ⟨aOps, hr1, hok2⟩ := except_bind_eq_ok hok
        obtain ⟨bOps, hr2, hok3⟩ := except_bind_eq_ok hok2
        obtain ⟨h2, h3⟩ : _ ∧ _ := by
          have := Except.ok.inj hok3
          exact ⟨congrArg Prod.fst this, congrArg Prod.snd this⟩
        subst h2 h3
        refine ⟨⟨arena_prefix_set_lu _ _ _ _ _ _ hia, arena_prefix_set_lu _ _ _ _ _ _ hib⟩, ?_⟩
        intro ra rb hres
        obtain ⟨hra, hrb⟩ : ra = arena.length ∧ rb = arena.length + 1 := by
          have := Option.some.inj hres
          exact ⟨congrArg Prod.fst this |>.symm, congrArg Prod.snd this |>.symm⟩
        subst hra hrb
        refine ⟨⟨by omega, by omega, by omega, by omega, by omega⟩, ?_⟩
        obtain ⟨hu, hv⟩ := arena_fresh_set_lu arena _ _
          { operations := aOps, applied := false } { operations := bOps, applied := false }
        exact ⟨_, _, hu, hv, rfl, rfl⟩
      · obtain ⟨h2, h3⟩ : _ ∧ _ := by
          have := Except.ok.inj hok
          exact ⟨congrArg Prod.fst this, congrArg Prod.snd this⟩
        subst h2 h3
        refine ⟨⟨arena_prefix_app _ _ _ _ hia, arena_prefix_app _ _ _ _ hib⟩, ?_⟩
        intro ra rb hres
        exact absurd hres (by simp)

/-- C10 witness: the frame theorem applied at a concrete two-transaction
arena, where the rebase succeeds and returns the two fresh slots 2 and 3. -/
theorem C10_witness :
    ∃ arena2, rebaseH [wTxA, wTxB] 0 1 = .ok (arena2, some (2, 3)) ∧
      (arena2[0]? = [wTxA, wTxB][0]? ∧ arena2[1]? = [wTxA, wTxB][1]?) ∧
      (((2 : Nat) ≠ 0 ∧ (2 : Nat) ≠ 1 ∧ (3 : Nat) ≠ 0 ∧ (3 : Nat) ≠ 1 ∧
          (2 : Nat) ≠ 3) ∧
        ∃ ta tb, arena2[2]? = some ta ∧ arena2[3]? = some tb ∧
          ta.applied = false ∧ tb.applied = false) := by
  refine ⟨_, rfl, ?_⟩
  have h := C10_rebaseH_frame [wTxA, wTxB] 0 1 (by decide) (by decide)
    _ (some (2, 3)) rfl
  exact ⟨h.1, h.2 2 3 rfl⟩

/-- Lower bound on the translated offset: a safe offset at or past the
cursor never maps below the target-side cursor. -/
theorem adjAt_ge (o : Int) : ∀ (l : List Op) (c a : Int),
    retainsNonneg l = true → touchesReplace o l c = false → c ≤ o →
    c + a ≤ o + adjAt o l c a := by
  intro l
  induction l with
  | nil =>
    intro c a _ _ hco
    simp only [adjAt]
    omega
  | cons op rest ih =>
    intro c a hret hsafe hco
    cases op with
    | retain len =>
      have h1 : 0 ≤ len ∧ retainsNonneg rest = true := by
        simpa [retainsNonneg] using hret
      have h2 : touchesReplace o rest (c + len) = false := by
        simpa [touchesReplace] using hsafe
      by_cases hcase : o < c + len
      · simp only [adjAt, if_pos hcase]
        omega
      · simp only [adjAt, if_neg hcase]
        have := ih (c + len) a h1.2 h2 (by omega)
        omega
    | replace rem ins rmeta imeta ido idl =>
      have h1 : retainsNonneg rest = true := by simpa [retainsNonneg] using hret
      have h2 : (c ≤ o → c + (rem.length : Int) < o) ∧
          touchesReplace o rest (c + (rem.length : Int)) = false := by
        simpa [touchesReplace, Bool.or_eq_false_iff, Bool.and_eq_false_iff,
          decide_eq_false_iff_not] using hsafe
      have hbig : c + (rem.length : Int) + 1 ≤ o := by
        have := h2.1 (by omega)
        omega
      simp only [adjAt]
      have := ih (c + rem.length) (a + ins.length - rem.length) h1 h2.2 (by omega)
      omega
    | retainMetadata n =>
      have h1 : retainsNonneg rest = true := by simpa [retainsNonneg] using hret
      have h2 : touchesReplace o rest c = false := by
        simpa [touchesReplace] using hsafe
      simp only [adjAt]
      exact ih c a h1 h2 hco
    | replaceMetadata x y =>
      have h1 : retainsNonneg rest = true := by simpa [retainsNonneg] using hret
      have h2 : touchesReplace o rest c = false := by
        simpa [touchesReplace] using hsafe
      simp only [adjAt]
      exact ih c a h1 h2 hco
    | attr k fv tv =>
      have h1 : retainsNonneg rest = true := by simpa [retainsNonneg] using hret
      have h2 : touchesReplace o rest c = false := by
        simpa [touchesReplace] using hsafe
      simp only [adjAt]
      exact ih c a h1 h2 hco
    | annotate m b i =>
      have h1 : retainsNonneg rest = true := by simpa [retainsNonneg] using hret
      have h2 : touchesReplace o rest c = false := by
        simpa [touchesReplace] using hsafe
      simp only [adjAt]
      exact ih c a h1 h2 hco

/-- Strict lower bound on the translated offset for an offset strictly past
the cursor. -/
theorem adjAt_ge_strict (o : Int) : ∀ (l : List Op) (c a : Int),
    retainsNonneg l = true → touchesReplace o l c = false → c + 1 ≤ o →
    c + a + 1 ≤ o + adjAt o l c a := by
  intro l
  induction l with
  | nil =>
    intro c a _ _ hco
    simp only [adjAt]
    omega
  | cons op rest ih =>
    intro c a hret hsafe hco
    cases op with
    | retain len =>
      have h1 : 0 ≤ len ∧ retainsNonneg rest = true := by
        simpa [retainsNonneg] using hret
      have h2 : touchesReplace o rest (c + len) = false := by
        simpa [touchesReplace] using hsafe
      by_cases hcase : o < c + len
      · simp only [adjAt, if_pos hcase]
        omega
      · simp only [adjAt, if_neg hcase]
        by_cases hlen : len = 0
        · have := ih (c + len) a h1.2 h2 (by omega)
          omega
        · have := adjAt_ge o rest (c + len) a h1.2 h2 (by omega)
          omega
    | replace rem ins rmeta imeta ido idl =>
      have h1 : retainsNonneg rest = true := by simpa [retainsNonneg] using hret
      have h2 : (c ≤ o → c + (rem.length : Int) < o) ∧
          touchesReplace o rest (c + (rem.length : Int)) = false := by
        simpa [touchesReplace, Bool.or_eq_false_iff, Bool.and_eq_false_iff,
          decide_eq_false_iff_not] using hsafe
      have hbig : c + (rem.length : Int) + 1 ≤ o := by
        have := h2.1 (by omega)
        omega
      simp only [adjAt]
      have := ih (c + rem.length) (a + ins.length - rem.length) h1 h2.2 (by omega)
      have hins : (0 : Int) ≤ ins.length := by positivity
      omega
    | retainMetadata n =>
      have h1 : retainsNonneg rest = true := by simpa [retainsNonneg] using hret
      have h2 : touchesReplace o rest c = false := by
        simpa [touchesReplace] using hsafe
      simp only [adjAt]
      exact ih c a h1 h2 hco
    | replaceMetadata x y =>
      have h1 : retainsNonneg rest = true := by simpa [retainsNonneg] using hret
      have h2 : touchesReplace o rest c = false := by
        simpa [touchesReplace] using hsafe
      simp only [adjAt]
      exact ih c a h1 h2 hco
    | attr k fv tv =>
      have h1 : retainsNonneg rest = true := by simpa [retainsNonneg] using hret
      have h2 : touchesReplace o rest c = false := by
        simpa [touchesReplace] using hsafe
      simp only [adjAt]
      exact ih c a h1 h2 hco
    | annotate m b i =>
      have h1 : retainsNonneg rest = true := by simpa [retainsNonneg] using hret
      have h2 : touchesReplace o rest c = false := by
        simpa [touchesReplace] using hsafe
      simp only [adjAt]
      exact ih c a h1 h2 hco

/-- On safe offsets the forward scan of `translateOffset` reduces to the
cumulative adjustment `adjAt`. -/
theorem translateGo_eq (o : Int) : ∀ (l : List Op) (c a : Int),
    retainsNonneg l = true → touchesReplace o l c = false → c ≤ o →
    translateOffsetGo o false l c a = o + adjAt o l c a := by
  intro l
  induction l with
  | nil =>
    intro c a _ _ _
    simp [translateOffsetGo, adjAt]
  | cons op rest ih =>
    intro c a hret hsafe hco
    cases op with
    | retain len =>
      have h1 : 0 ≤ len ∧ retainsNonneg rest = true := by
        simpa [retainsNonneg] using hret
      have h2 : touchesReplace o rest (c + len) = false := by
        simpa [touchesReplace] using hsafe
      by_cases hcase : o < c + len
      · simp only [translateOffsetGo, adjAt, if_pos (And.intro hco hcase),
          if_pos hcase]
      · simp only [translateOffsetGo, adjAt,
          if_neg (fun h : c ≤ o ∧ o < c + len => hcase h.2), if_neg hcase]
        exact ih (c + len) a h1.2 h2 (by omega)
    | replace rem ins rmeta imeta ido idl =>
      have h1 : retainsNonneg rest = true := by simpa [retainsNonneg] using hret
      have h2 : (c ≤ o → c + (rem.length : Int) < o) ∧
          touchesReplace o rest (c + (rem.length : Int)) = false := by
        simpa [touchesReplace, Bool.or_eq_false_iff, Bool.and_eq_false_iff,
          decide_eq_false_iff_not] using hsafe
      have hbig : c + (rem.length : Int) + 1 ≤ o := by
        have := h2.1 (by omega)
        omega
      simp only [translateOffsetGo, adjAt]
      rw [if_neg (by omega : ¬ o = c + (rem.length : Int)),
        if_neg (by omega : ¬ o = c),
        if_neg (by omega : ¬ (c < o ∧ o < c + (rem.length : Int)))]
      exact ih (c + rem.length) (a + ins.length - rem.length) h1 h2.2 (by omega)
    | retainMetadata n =>
      have h1 : retainsNonneg rest = true := by simpa [retainsNonneg] using hret
      have h2 : touchesReplace o rest c = false := by
        simpa [touchesReplace] using hsafe
      simp only [translateOffsetGo, adjAt]
      exact ih c a h1 h2 hco
    | replaceMetadata x y =>
      have h1 : retainsNonneg rest = true := by simpa [retainsNonneg] using hret
      have h2 : touchesReplace o rest c = false := by
        simpa [touchesReplace] using hsafe
      simp only [translateOffsetGo, adjAt]
      exact ih c a h1 h2 hco
    | attr k fv tv =>
      have h1 : retainsNonneg rest = true := by simpa [retainsNonneg] using hret
      have h2 : touchesReplace o rest c = false := by
        simpa [touchesReplace] using hsafe
      simp only [translateOffsetGo, adjAt]
      exact ih c a h1 h2 hco
    | annotate m b i =>
      have h1 : retainsNonneg rest = true := by simpa [retainsNonneg] using hret
      have h2 : touchesReplace o rest c = false := by
        simpa [touchesReplace] using hsafe
      simp only [translateOffsetGo, adjAt]
      exact ih c a h1 h2 hco

/-- The reversed transaction's scan maps the translated offset back to the
original safe offset. -/
theorem rev_translateGo (o : Int) : ∀ (l : List Op) (c a : Int),
    retainsNonneg l = true → touchesReplace o l c = false → c ≤ o →
    translateOffsetGo (o + adjAt o l c a) false (l.map reverseOp) (c + a) (-a) = o := by
  intro l
  induction l with
  | nil =>
    intro c a _ _ _
    simp only [adjAt, List.map_nil, translateOffsetGo]
    omega
  | cons op rest ih =>
    intro c a hret hsafe hco
    cases op with
    | retain len =>
      have h1 : 0 ≤ len ∧ retainsNonneg rest = true := by
        simpa [retainsNonneg] using hret
      have h2 : touchesReplace o rest (c + len) = false := by
        simpa [touchesReplace] using hsafe
      by_cases hcase : o < c + len
      · simp only [adjAt, if_pos hcase, List.map_cons, reverseOp, translateOffsetGo]
        rw [if_pos (by constructor <;> omega :
          c + a ≤ o + a ∧ o + a < c + a + len)]
        omega
      · have hb := adjAt_ge o rest (c + len) a h1.2 h2 (by omega)
        simp only [adjAt, if_neg hcase, List.map_cons, reverseOp, translateOffsetGo]
        rw [if_neg (by omega :
          ¬ (c + a ≤ o + adjAt o rest (c + len) a ∧
            o + adjAt o rest (c + len) a < c + a + len))]
        have heq : c + a + len = c + len + a := by ring
        rw [heq]
        exact ih (c + len) a h1.2 h2 (by omega)
    | replace rem ins rmeta imeta ido idl =>
      have h1 : retainsNonneg rest = true := by simpa [retainsNonneg] using hret
      have h2 : (c ≤ o → c + (rem.length : Int) < o) ∧
          touchesReplace o rest (c + (rem.length : Int)) = false := by
        simpa [touchesReplace, Bool.or_eq_false_iff, Bool.and_eq_false_iff,
          decide_eq_false_iff_not] using hsafe
      have hbig : c + (rem.length : Int) + 1 ≤ o := by
        have := h2.1 (by omega)
        omega
      have hstrict := adjAt_ge_strict o rest (c + rem.length)
        (a + ins.length - rem.length) h1 h2.2 (by omega)
      simp only [adjAt, List.map_cons, reverseOp, translateOffsetGo]
      rw [if_neg (by omega :
        ¬ o + adjAt o rest (c + ↑rem.length) (a + ↑ins.length - ↑rem.length) =
          c + a + (ins.length : Int)),
        if_neg (by omega :
        ¬ o + adjAt o rest (c + ↑rem.length) (a + ↑ins.length - ↑rem.length) = c + a),
        if_neg (by omega :
        ¬ (c + a < o + adjAt o rest (c + ↑rem.length) (a + ↑ins.length - ↑rem.length) ∧
          o + adjAt o rest (c + ↑rem.length) (a + ↑ins.length - ↑rem.length) <
            c + a + (ins.length : Int)))]
      have e1 : c + a + (ins.length : Int) = c + (rem.length : Int) +
          (a + ins.length - rem.length) := by ring
      have e2 : -a + (rem.length : Int) - (ins.length : Int) =
          -(a + (ins.length : Int) - (rem.length : Int)) := by ring
      rw [e1, e2]
      exact ih (c + rem.length) (a + ins.length - rem.length) h1 h2.2 (by omega)
    | retainMetadata n =>
      have h1 : retainsNonneg rest = true := by simpa [retainsNonneg] using hret
      have h2 : touchesReplace o rest c = false := by
        simpa [touchesReplace] using hsafe
      simp only [adjAt, List.map_cons, reverseOp, translateOffsetGo]
      exact ih c a h1 h2 hco
    | replaceMetadata x y =>
      have h1 : retainsNonneg rest = true := by simpa [retainsNonneg] using hret
      have h2 : touchesReplace o rest c = false := by
        simpa [touchesReplace] using hsafe
      simp only [adjAt, List.map_cons, reverseOp, translateOffsetGo]
      exact ih c a h1 h2 hco
    | attr k fv tv =>
      have h1 : retainsNonneg rest = true := by simpa [retainsNonneg] using hret
      have h2 : touchesReplace o rest c = false := by
        simpa [touchesReplace] using hsafe
      simp only [adjAt, List.map_cons, reverseOp, translateOffsetGo]
      exact ih c a h1 h2 hco
    | annotate m b i =>
      have h1 : retainsNonneg rest = true := by simpa [retainsNonneg] using hret
      have h2 : touchesReplace o rest c = false := by
        simpa [touchesReplace] using hsafe
      simp only [adjAt, List.map_cons, reverseOp, translateOffsetGo]
      exact ih c a h1 h2 hco

/-- C4: for every transaction `t` (with well-formed retain lengths,
invariant I3) and every document offset `o` that does not lie inside a
region `t` removes or inserts (the closed regions touched by `replace`
operations, per `touchesReplace`),
`t.reversed().translateOffset(t.translateOffset(o))` equals `o`. -/
theorem C4_translateOffset_roundtrip (t : Transaction) (o : Int)
    (hret : retainsNonneg t.operations = true)
    (hsafe : touchesReplace o t.operations 0 = false)
    (ho : 0 ≤ o) :
    t.reversed.translateOffset (t.translateOffset o false) false = o := by
  have h1 := translateGo_eq o t.operations 0 0 hret hsafe ho
  have h2 := rev_translateGo o t.operations 0 0 hret hsafe ho
  unfold Transaction.translateOffset Transaction.reversed
  simp only [Transaction.translateOffset, Transaction.reversed] at h1 h2 ⊢
  rw [h1]
  simpa using h2

/-- C4 witness: the round trip at a concrete transaction and offset. -/
theorem C4_witness :
    retainsNonneg wTxA.operations = true ∧
    touchesReplace 4 wTxA.operations 0 = false ∧
    wTxA.reversed.translateOffset (wTxA.translateOffset 4 false) false = 4 :=
  ⟨by decide, by decide,
    C4_translateOffset_roundtrip wTxA 4 (by decide) (by decide) (by decide)⟩

/-- `pushRetain` of zero is the identity. -/
theorem pushRetain_zero (ops : List Op) : pushRetain 0 ops = .ok ops := rfl

/-- `pushRetain` of a positive length onto the empty list appends. -/
theorem pushRetain_pos_nil (n : Int) (h : 0 < n) :
    pushRetain n [] = .ok [Op.retain n] := by
  unfold pushRetain
  rw [if_neg (by omega), if_neg (by omega)]
  rfl

/-- `pushRetain` of a positive length coalesces with a single trailing
retain. -/
theorem pushRetain_pos_retain (n l : Int) (h : 0 < n) :
    pushRetain n [Op.retain l] = .ok [Op.retain (l + n)] := by
  unfold pushRetain
  rw [if_neg (by omega), if_neg (by omega)]
  rfl

/-- `pushRetainMetadata` of a positive length after a single retain
appends. -/
theorem pushRetainMetadata_pos_retain (n x : Int) (h : 0 < n) :
    pushRetainMetadata n [Op.retain x] = .ok [Op.retain x, Op.retainMetadata n] := by
  unfold pushRetainMetadata
  rw [if_neg (by omega), if_neg (by omega)]
  rfl

/-- `pushRemoval` of a collapsed range returns early: retain to the range
start, consulting nothing else. -/
theorem pushRemoval_collapsed (doc : Doc) (c : Int) (r : Range) (rm : Bool)
    (ops : List Op) (h : r.start = r.endPos) :
    pushRemoval doc c r rm ops = (do
      let ops1 ← pushRetain (r.start - c) ops
      Except.ok (ops1, r.start)) := by
  unfold pushRemoval
  rw [if_pos (by simp [Range.isCollapsed, h])]

/-- C9: for every document and every collapsed range (with a non-negative
start, in a document whose internal list starts inside the data), provided
the empty-paragraph rule is not triggered, `newFromRemoval` succeeds,
produces a transaction of only `retain`/`retainMetadata` operations (so
`isNoOp` holds), and returns the same result with the `selectNodes`
collaborator replaced by one returning nothing - it is never consulted. -/
theorem C9_newFromRemoval_collapsed (doc : Doc) (r : Range) (rm : Bool)
    (hcol : r.start = r.endPos) (hnn : 0 ≤ r.start)
    (hils : doc.internalListStart ≤ (doc.data.length : Int))
    (hnotpara : 0 < r.start ∨ r.endPos < doc.internalListStart) :
    ∃ tx, newFromRemoval doc r rm = .ok tx ∧
      tx.isNoOp = true ∧
      (∀ op ∈ tx.operations,
        (∃ n, op = Op.retain n) ∨ (∃ n, op = Op.retainMetadata n)) ∧
      newFromRemoval { doc with selectNodesCovered := fun _ => [] } r rm =
        .ok tx := by
  have hcond : ¬ (r.start = 0 ∧ doc.internalListStart ≤ r.endPos) := by
    rcases hnotpara with h | h
    · exact fun hc => by omega
    · exact fun hc => by omega
  have horacle : ∀ tx, newFromRemoval doc r rm = .ok tx →
      newFromRemoval { doc with selectNodesCovered := fun _ => [] } r rm = .ok tx := by
    intro tx htx
    rw [← htx]
    simp only [newFromRemoval, pushRemoval_collapsed _ _ _ _ _ hcol, if_neg hcond]
    rfl
  suffices h : ∃ tx, newFromRemoval doc r rm = .ok tx ∧ tx.isNoOp = true ∧
      (∀ op ∈ tx.operations,
        (∃ n, op = Op.retain n) ∨ (∃ n, op = Op.retainMetadata n)) by
    obtain ⟨tx, h1, h2, h3⟩ := h
    exact ⟨tx, h1, h2, h3, horacle tx h1⟩
  by_cases hs0 : r.start = 0
  · -- the removal starts at 0, so the internal list starts strictly later
    have h0ils : 0 < doc.internalListStart := by
      rcases hnotpara with h | h
      · omega
      · omega
    have hend : r.endPos < doc.internalListStart := by
      rcases hnotpara with h | h
      · omega
      · omega
    have hdl : 0 < (doc.data.length : Int) := by omega
    by_cases hfm : doc.metadata.getD doc.data.length [] = []
    · refine ⟨⟨[Op.retain (doc.data.length : Int)], false⟩,
        ?_, rfl, ?_⟩
      · simp only [newFromRemoval, pushRemoval_collapsed _ _ _ _ _ hcol,
          pushFinalRetain]
        rw [show r.start - 0 = r.start by ring, hs0]
        rw [pushRetain_zero]
        simp only [except_bind_ok]
        rw [if_neg (show ¬ (True ∧ doc.internalListStart ≤ r.endPos) by
          simp only [true_and]; omega)]
        rw [if_pos (by omega : (0 : Int) < (doc.data.length : Int))]
        rw [show (doc.data.length : Int) - 0 = (doc.data.length : Int) by ring]
        rw [pushRetain_pos_nil _ (by omega)]
        simp only [List.getD_eq_getElem?_getD] at hfm
        simp [except_bind_ok, hfm]
      · intro op hop
        simp at hop
        exact Or.inl ⟨_, hop⟩
    · refine ⟨⟨[Op.retain (doc.data.length : Int),
          Op.retainMetadata ((doc.metadata.getD doc.data.length []).length : Int)],
          false⟩, ?_, rfl, ?_⟩
      · simp only [newFromRemoval, pushRemoval_collapsed _ _ _ _ _ hcol,
          pushFinalRetain]
        rw [show r.start - 0 = r.start by ring, hs0]
        rw [pushRetain_zero]
        simp only [except_bind_ok]
        rw [if_neg (show ¬ (True ∧ doc.internalListStart ≤ r.endPos) by
          simp only [true_and]; omega)]
        rw [if_pos (by omega : (0 : Int) < (doc.data.length : Int))]
        rw [show (doc.data.length : Int) - 0 = (doc.data.length : Int) by ring]
        rw [pushRetain_pos_nil _ (by omega)]
        simp only [except_bind_ok, if_pos hfm]
        rw [show ((doc.metadata.getD doc.data.length []).length : Int) - (0 : Int) =
          ((doc.metadata.getD doc.data.length []).length : Int) by ring]
        rw [pushRetainMetadata_pos_retain _ _ (by
          have : (doc.metadata.getD doc.data.length []).length ≠ 0 := by
            simpa [List.length_eq_zero] using hfm
          omega)]
        rfl
      · intro op hop
        simp at hop
        rcases hop with h | h
        · exact Or.inl ⟨_, h⟩
        · exact Or.inr ⟨_, h⟩
  · -- positive start
    have hspos : 0 < r.start := by omega
    by_cases hsd : r.start < (doc.data.length : Int)
    · by_cases hfm : doc.metadata.getD doc.data.length [] = []
      · refine ⟨⟨[Op.retain (r.start + ((doc.data.length : Int) - r.start))],
          false⟩, ?_, rfl, ?_⟩
        · simp only [newFromRemoval, pushRemoval_collapsed _ _ _ _ _ hcol,
            pushFinalRetain]
          rw [show r.start - 0 = r.start by ring]
          rw [pushRetain_pos_nil _ hspos]
          simp only [except_bind_ok]
          rw [if_neg hcond]
          rw [if_pos hsd]
          rw [pushRetain_pos_retain _ _ (by omega)]
          simp only [List.getD_eq_getElem?_getD] at hfm
          simp [except_bind_ok, hfm]
        · intro op hop
          simp at hop
          exact Or.inl ⟨_, hop⟩
      · refine ⟨⟨[Op.retain (r.start + ((doc.data.length : Int) - r.start)),
            Op.retainMetadata ((doc.metadata.getD doc.data.length []).length : Int)],
            false⟩, ?_, rfl, ?_⟩
        · simp only [newFromRemoval, pushRemoval_collapsed _ _ _ _ _ hcol,
            pushFinalRetain]
          rw [show r.start - 0 = r.start by ring]
          rw [pushRetain_pos_nil _ hspos]
          simp only [except_bind_ok]
          rw [if_neg hcond]
          rw [if_pos hsd]
          rw [pushRetain_pos_retain _ _ (by omega)]
          simp only [except_bind_ok, if_pos hfm]
          rw [show ((doc.metadata.getD doc.data.length []).length : Int) - (0 : Int) =
            ((doc.metadata.getD doc.data.length []).length : Int) by ring]
          rw [pushRetainMetadata_pos_retain _ _ (by
            have : (doc.metadata.getD doc.data.length []).length ≠ 0 := by
              simpa [List.length_eq_zero] using hfm
            omega)]
          rfl
        · intro op hop
          simp at hop
          rcases hop with h | h
          · exact Or.inl ⟨_, h⟩
          · exact Or.inr ⟨_, h⟩
    · by_cases hfm : doc.metadata.getD doc.data.length [] = []
      · refine ⟨⟨[Op.retain r.start], false⟩, ?_, rfl, ?_⟩
        · simp only [newFromRemoval, pushRemoval_collapsed _ _ _ _ _ hcol,
            pushFinalRetain]
          rw [show r.start - 0 = r.start by ring]
          rw [pushRetain_pos_nil _ hspos]
          simp only [except_bind_ok]
          rw [if_neg hcond]
          rw [if_neg hsd]
          simp only [List.getD_eq_getElem?_getD] at hfm
          simp [except_bind_ok, hfm]
        · intro op hop
          simp at hop
          exact Or.inl ⟨_, hop⟩
      · refine ⟨⟨[Op.retain r.start,
            Op.retainMetadata ((doc.metadata.getD doc.data.length []).length : Int)],
            false⟩, ?_, rfl, ?_⟩
        · simp only [newFromRemoval, pushRemoval_collapsed _ _ _ _ _ hcol,
            pushFinalRetain]
          rw [show r.start - 0 = r.start by ring]
          rw [pushRetain_pos_nil _ hspos]
          simp only [except_bind_ok]
          rw [if_neg hcond]
          rw [if_neg hsd]
          simp only [except_bind_ok, Option.getD_none, if_pos hfm]
          rw [show ((doc.metadata.getD doc.data.length []).length : Int) - (0 : Int) =
            ((doc.metadata.getD doc.data.length []).length : Int) by ring]
          rw [pushRetainMetadata_pos_retain _ _ (by
            have : (doc.metadata.getD doc.data.length []).length ≠ 0 := by
              simpa [List.length_eq_zero] using hfm
            omega)]
          rfl
        · intro op hop
          simp at hop
          rcases hop with h | h
          · exact Or.inl ⟨_, h⟩
          · exact Or.inr ⟨_, h⟩

/-- C9 witness: a concrete collapsed removal. -/
theorem C9_witness :
    ∃ tx, newFromRemoval wDocIls2 { start := 1, endPos := 1 } false = .ok tx ∧
      tx.isNoOp = true ∧
      (∀ op ∈ tx.operations,
        (∃ n, op = Op.retain n) ∨ (∃ n, op = Op.retainMetadata n)) ∧
      newFromRemoval { wDocIls2 with selectNodesCovered := fun _ => [] }
        { start := 1, endPos := 1 } false = .ok tx :=
  C9_newFromRemoval_collapsed wDocIls2 { start := 1, endPos := 1 } false rfl
    (by decide) (by decide) (by decide)

/-- Members of a `pushRetain` result come from the input or are retains. -/
theorem pushRetain_shape {n : Int} {ops ops' : List Op}
    (h : pushRetain n ops = .ok ops') :
    ∀ op ∈ ops', op ∈ ops ∨ ∃ m, op = Op.retain m := by
  unfold pushRetain at h
  split at h
  · exact absurd h (by simp)
  · split at h
    · obtain rfl := Except.ok.inj h
      exact fun op hop => Or.inl hop
    · split at h
      · obtain rfl := Except.ok.inj h
        intro op hop
        rcases List.mem_append.mp hop with h1 | h1
        · exact Or.inl (List.dropLast_subset _ h1)
        · simp at h1
          exact Or.inr ⟨_, h1⟩
      · obtain rfl := Except.ok.inj h
        intro op hop
        rcases List.mem_append.mp hop with h1 | h1
        · exact Or.inl h1
        · simp at h1
          exact Or.inr ⟨_, h1⟩

/-- Members of a `pushRetainMetadata` result come from the input or are
metadata retains. -/
theorem pushRetainMetadata_shape {n : Int} {ops ops' : List Op}
    (h : pushRetainMetadata n ops = .ok ops') :
    ∀ op ∈ ops', op ∈ ops ∨ ∃ m, op = Op.retainMetadata m := by
  unfold pushRetainMetadata at h
  split at h
  · exact absurd h (by simp)
  · split at h
    · obtain rfl := Except.ok.inj h
      exact fun op hop => Or.inl hop
    · split at h
      · obtain rfl := Except.ok.inj h
        intro op hop
        rcases List.mem_append.mp hop with h1 | h1
        · exact Or.inl (List.dropLast_subset _ h1)
        · simp at h1
          exact Or.inr ⟨_, h1⟩
      · obtain rfl := Except.ok.inj h
        intro op hop
        rcases List.mem_append.mp hop with h1 | h1
        · exact Or.inl h1
        · simp at h1
          exact Or.inr ⟨_, h1⟩

/-- A non-retain member of the input survives `pushRetain`. -/
theorem pushRetain_mem_preserved {n : Int} {ops ops' : List Op} {op : Op}
    (hop : op ∈ ops) (hnr : ∀ m, op ≠ Op.retain m)
    (h : pushRetain n ops = .ok ops') : op ∈ ops' := by
  unfold pushRetain at h
  split at h
  · exact absurd h (by simp)
  · split at h
    · obtain rfl := Except.ok.inj h
      exact hop
    · split at h
      · rename_i l heq
        obtain rfl := Except.ok.inj h
        rw [← List.dropLast_append_getLast? _ heq] at hop
        rcases List.mem_append.mp hop with h1 | h1
        · exact List.mem_append.mpr (Or.inl h1)
        · simp at h1
          exact absurd h1 (hnr l)
      · obtain rfl := Except.ok.inj h
        exact List.mem_append.mpr (Or.inl hop)

/-- A non-retainMetadata member of the input survives
`pushRetainMetadata`. -/
theorem pushRetainMetadata_mem_preserved {n : Int} {ops ops' : List Op} {op : Op}
    (hop : op ∈ ops) (hnr : ∀ m, op ≠ Op.retainMetadata m)
    (h : pushRetainMetadata n ops = .ok ops') : op ∈ ops' := by
  unfold pushRetainMetadata at h
  split at h
  · exact absurd h (by simp)
  · split at h
    · obtain rfl := Except.ok.inj h
      exact hop
    · split at h
      · rename_i l heq
        obtain rfl := Except.ok.inj h
        rw [← List.dropLast_append_getLast? _ heq] at hop
        rcases List.mem_append.mp hop with h1 | h1
        · exact List.mem_append.mpr (Or.inl h1)
        · simp at h1
          exact absurd h1 (hnr l)
      · obtain rfl := Except.ok.inj h
        exact List.mem_append.mpr (Or.inl hop)

/-- Members of a `pushReplaceInternal` result come from the input or are
the single pushed replace. -/
theorem pushReplaceInternal_mem (remove insert : List Item)
    (rmeta imeta : Option (List Cell)) (ido idl : Option Int) (ops : List Op) :
    ∀ op ∈ pushReplaceInternal remove insert rmeta imeta ido idl ops,
      op ∈ ops ∨ ∃ a b c d, op = Op.replace remove insert a b c d := by
  unfold pushReplaceInternal
  split
  · exact fun op hop => Or.inl hop
  · intro op hop
    rcases List.mem_append.mp hop with h1 | h1
    · exact Or.inl h1
    · simp at h1
      exact Or.inr ⟨_, _, _, _, h1⟩

/-- Members of a `pushReplaceMetadata` result come from the input or are
the single pushed metadata replace. -/
theorem pushReplaceMetadata_mem (rm ins : List Meta) (ops : List Op) :
    ∀ op ∈ pushReplaceMetadata rm ins ops,
      op ∈ ops ∨ op = Op.replaceMetadata rm ins := by
  unfold pushReplaceMetadata
  split
  · exact fun op hop => Or.inl hop
  · intro op hop
    rcases List.mem_append.mp hop with h1 | h1
    · exact Or.inl h1
    · simp at h1
      exact Or.inr h1

/-- The final append of `pushReplace` (with an empty insert) preserves the
empty-insert property. -/
theorem emptyInsert_finish (remove : List Item)
    (removeMetadata : List Cell) (im1 : Option (List Cell)) (ido idl : Option Int)
    (extraM : Option Cell) (ops1 : List Op) (hP : emptyInsertOnly ops1) :
    emptyInsertOnly ((match extraM with
      | some em => pushReplaceMetadata [] em
          (pushReplaceInternal remove [] (some removeMetadata) im1 ido idl ops1)
      | none => pushReplaceInternal remove [] (some removeMetadata) im1 ido idl ops1)) := by
  have hmid : emptyInsertOnly
      (pushReplaceInternal remove [] (some removeMetadata) im1 ido idl ops1) := by
    intro op hop rem2 ins2 rm2 im2 o2 l2 heq
    rcases pushReplaceInternal_mem _ _ _ _ _ _ _ op hop with h1 | ⟨a, b, c, d, h1⟩
    · exact hP op h1 _ _ _ _ _ _ heq
    · rw [h1] at heq
      injection heq with e1 e2 e3 e4 e5 e6
      exact e2.symm
  cases extraM with
  | none => exact hmid
  | some em =>
    intro op hop rem2 ins2 rm2 im2 o2 l2 heq
    rcases pushReplaceMetadata_mem _ _ _ op hop with h1 | h1
    · exact hmid op h1 _ _ _ _ _ _ heq
    · rw [h1] at heq
      exact absurd heq (by simp)

/-- The `pushReplaceCore` decision tail with an empty insert preserves the
empty-insert property, provided the recursive call does. -/
theorem pushReplaceCore_emptyInsert
    (recur : Int → Int → List Item → Option (List Cell) → Option Int →
      Option Int → List Op → TxE (List Op))
    (hrec : ∀ off len im ido idl ops ops', emptyInsertOnly ops →
      recur off len [] im ido idl ops = .ok ops' → emptyInsertOnly ops')
    (offset removeLength : Int) (remove : List Item) (removeMetadata : List Cell)
    (im1 : Option (List Cell)) (extraM : Option Cell) (isInsEmpty : Bool)
    (mergedMetadata : List Cell) (ido idl : Option Int) (ops1 ops' : List Op)
    (hP : emptyInsertOnly ops1)
    (h : pushReplaceCore recur offset removeLength [] remove removeMetadata
      im1 extraM isInsEmpty mergedMetadata ido idl ops1 = .ok ops') :
    emptyInsertOnly ops' := by
  have hPd : emptyInsertOnly ops1.dropLast :=
    fun op hop => hP op (List.dropLast_subset _ hop)
  unfold pushReplaceCore at h
  split at h
  · rename_i lrem lins lrm lim lido lidl hlast
    have hlins : lins = [] :=
      hP _ (List.mem_of_mem_getLast? hlast) _ _ _ _ _ _ rfl
    split at h
    · obtain ⟨pad, _, hrec1⟩ := except_bind_eq_ok h
      rw [hlins] at hrec1
      simp only [List.nil_append] at hrec1
      exact hrec _ _ _ _ _ _ _ hPd hrec1
    · split at h
      · exact hrec _ _ _ _ _ _ _ hPd h
      · obtain rfl := Except.ok.inj h
        exact emptyInsert_finish _ _ _ _ _ _ _ hP
  · exact absurd h (by simp)
  · obtain rfl := Except.ok.inj h
    exact emptyInsert_finish _ _ _ _ _ _ _ hP

/-- `pushReplace` with an empty insert preserves the empty-insert
property. -/
theorem pushReplaceF_emptyInsert (doc : Doc) :
    ∀ (fuel : Nat) (offset removeLength : Int) (im : Option (List Cell))
      (ido idl : Option Int) (ops ops' : List Op),
      emptyInsertOnly ops →
      pushReplaceF doc fuel offset removeLength [] im ido idl ops = .ok ops' →
      emptyInsertOnly ops' := by
  intro fuel
  induction fuel with
  | zero =>
    intro offset removeLength im ido idl ops ops' hP h
    exact absurd h (by simp [pushReplaceF])
  | succ fuel ih =>
    intro offset removeLength im ido idl ops ops' hP h
    simp only [pushReplaceF] at h
    split at h
    · obtain rfl := Except.ok.inj h
      exact hP
    · have hPd : emptyInsertOnly ops.dropLast :=
        fun op hop => hP op (List.dropLast_subset _ hop)
      repeat' split at h
      all_goals dsimp only at h
      all_goals
        first
          | exact pushReplaceCore_emptyInsert _
              (fun off len im2 ido2 idl2 o o' hp hh => ih off len im2 ido2 idl2 o o' hp hh)
              _ _ _ _ _ _ _ _ _ _ _ _ hPd h
          | exact pushReplaceCore_emptyInsert _
              (fun off len im2 ido2 idl2 o o' hp hh => ih off len im2 ido2 idl2 o o' hp hh)
              _ _ _ _ _ _ _ _ _ _ _ _ hP h

/-- Slices of an all-empty metadata list are all empty. -/
theorem cellsAllEmpty_slice (l : List Cell) (h : cellsAllEmpty l = true)
    (s e : Int) : cellsAllEmpty (jsSlice l s e) = true := by
  simp only [cellsAllEmpty, List.all_eq_true] at h ⊢
  intro c hc
  exact h c (List.take_subset _ _ (List.drop_subset _ _ hc))

/-- Replicated empty cells are all empty. -/
theorem cellsAllEmpty_replicate (n : Nat) :
    cellsAllEmpty (List.replicate n ([] : Cell)) = true := by
  simp only [cellsAllEmpty, List.all_eq_true]
  intro c hc
  simp [List.eq_of_mem_replicate hc]

/-- `pushReplaceInternal` with no insert metadata and no inserted-data
markers pushes a bare replace. -/
theorem pushReplaceInternal_none_eq (remove insert : List Item)
    (rmeta : Option (List Cell)) (ops : List Op) :
    pushReplaceInternal remove insert rmeta none none none ops =
      if remove = [] ∧ insert = [] then ops
      else ops ++ [Op.replace remove insert none none none none] := by
  unfold pushReplaceInternal
  cases rmeta <;> rfl

/-- The final append of `pushReplace` with empty insert, no insert
metadata, no extra metadata and no markers preserves `cleanShape`. -/
theorem cleanShape_finish (remove : List Item) (removeMetadata : List Cell)
    (ops1 : List Op) (hP : cleanShape ops1) :
    cleanShape (pushReplaceInternal remove [] (some removeMetadata)
      none none none ops1) := by
  rw [pushReplaceInternal_none_eq]
  split
  · exact hP
  · intro op hop
    rcases List.mem_append.mp hop with h1 | h1
    · exact hP op h1
    · simp at h1
      exact Or.inr ⟨_, h1⟩

/-- The `pushReplaceCore` decision tail with empty insert, absent insert
metadata, no extra metadata, no merged metadata and no markers preserves
`cleanShape`, provided the recursive call does. -/
theorem pushReplaceCore_cleanShape
    (recur : Int → Int → List Item → Option (List Cell) → Option Int →
      Option Int → List Op → TxE (List Op))
    (hrec : ∀ off len im ops ops', cleanShape ops → emptyish im →
      recur off len [] im none none ops = .ok ops' → cleanShape ops')
    (offset removeLength : Int) (remove : List Item) (removeMetadata : List Cell)
    (isInsEmpty : Bool) (ops1 ops' : List Op)
    (hP : cleanShape ops1)
    (h : pushReplaceCore recur offset removeLength [] remove removeMetadata
      none none isInsEmpty [] none none ops1 = .ok ops') :
    cleanShape ops' := by
  have hPd : cleanShape ops1.dropLast :=
    fun op hop => hP op (List.dropLast_subset _ hop)
  unfold pushReplaceCore at h
  split at h
  · rename_i lrem lins lrm lim lido lidl hlast
    rcases hP _ (List.mem_of_mem_getLast? hlast) with ⟨n, hn⟩ | ⟨rem0, hr⟩
    · exact absurd hn (by simp)
    · injection hr with e1 e2 e3 e4 e5 e6
      subst e2 e3 e4
      split at h
      · obtain ⟨pad, hpad, hrec1⟩ := except_bind_eq_ok h
        have hpadval : pad = [] := by
          simp at hpad
          exact hpad
        subst hpadval
        simp only [List.nil_append, List.append_nil, Option.getD_none,
          List.length_nil, List.replicate] at hrec1
        refine hrec _ _ _ _ _ hPd ?_ hrec1
        exact Or.inr ⟨_, rfl, by simp [cellsAllEmpty]⟩
      · split at h
        · exact hrec _ _ _ _ _ hPd (Or.inl rfl) h
        · obtain rfl := Except.ok.inj h
          exact cleanShape_finish _ _ _ hP
  · exact absurd h (by simp)
  · obtain rfl := Except.ok.inj h
    exact cleanShape_finish _ _ _ hP

/-- A clean operations list never ends in a `replaceMetadata`. -/
theorem cleanShape_no_rmLast {ops : List Op} (hP : cleanShape ops)
    {rm ri : List Meta} : ops.getLast? = some (Op.replaceMetadata rm ri) → False := by
  intro heq
  rcases hP _ (List.mem_of_mem_getLast? heq) with ⟨n, hn⟩ | ⟨r0, hr⟩
  · exact absurd hn (by simp)
  · exact absurd hr (by simp)

/-- `pushReplace` with empty insert on a metadata-free document preserves
`cleanShape`. -/
theorem pushReplaceF_cleanShape (doc : Doc)
    (hmeta : cellsAllEmpty doc.metadata = true) :
    ∀ (fuel : Nat) (offset removeLength : Int) (im : Option (List Cell))
      (ops ops' : List Op),
      cleanShape ops → emptyish im →
      pushReplaceF doc fuel offset removeLength [] im none none ops = .ok ops' →
      cleanShape ops' := by
  intro fuel
  induction fuel with
  | zero =>
    intro offset removeLength im ops ops' hP him h
    exact absurd h (by simp [pushReplaceF])
  | succ fuel ih =>
    intro offset removeLength im ops ops' hP him h
    simp only [pushReplaceF] at h
    split at h
    · obtain rfl := Except.ok.inj h
      exact hP
    · have hre : cellsAllEmpty (doc.getMetadataRange
          { start := offset, endPos := offset + removeLength }) = true :=
        cellsAllEmpty_slice _ hmeta _ _
      rcases him with rfl | ⟨cs, rfl, hcs⟩
      · dsimp only at h
        rw [if_pos hre] at h
        dsimp only at h
        repeat' split at h
        all_goals dsimp only at h
        all_goals
          first
            | exact pushReplaceCore_cleanShape _
                (fun off len im2 o o' hp hm hh => ih off len im2 o o' hp hm hh)
                _ _ _ _ _ _ _ hP h
            | (exfalso
               exact cleanShape_no_rmLast hP (by assumption))
      · dsimp only at h
        rw [if_pos ⟨hcs, hre⟩] at h
        dsimp only at h
        repeat' split at h
        all_goals dsimp only at h
        all_goals
          first
            | exact pushReplaceCore_cleanShape _
                (fun off len im2 o o' hp hm hh => ih off len im2 o o' hp hm hh)
                _ _ _ _ _ _ _ hP h
            | (exfalso
               exact cleanShape_no_rmLast hP (by assumption))

/-- The `pushReplaceCore` decision tail with nonempty insert, absent
insert metadata, no extra metadata, no merged metadata and no markers puts
a replace carrying the insert into the result, provided the recursive call
does. -/
theorem pushReplaceCore_insert_mem
    (recur : Int → Int → List Item → Option (List Cell) → Option Int →
      Option Int → List Op → TxE (List Op))
    (ins : List Item) (hins : ins ≠ [])
    (hrec : ∀ off len im ops ops', cleanShape ops → emptyish im →
      recur off len ins im none none ops = .ok ops' →
      ∃ a b c d e, Op.replace a ins b c d e ∈ ops')
    (offset removeLength : Int) (remove : List Item) (removeMetadata : List Cell)
    (isInsEmpty : Bool) (ops1 ops' : List Op)
    (hP : cleanShape ops1)
    (h : pushReplaceCore recur offset removeLength ins remove removeMetadata
      none none isInsEmpty [] none none ops1 = .ok ops') :
    ∃ a b c d e, Op.replace a ins b c d e ∈ ops' := by
  have hPd : cleanShape ops1.dropLast :=
    fun op hop => hP op (List.dropLast_subset _ hop)
  have hneg : ¬ ((ins.length : Int) - (([] : List Cell).length : Int) < 0) := by
    simp only [List.length_nil]
    omega
  unfold pushReplaceCore at h
  split at h
  · rename_i lrem lins lrm lim lido lidl hlast
    rcases hP _ (List.mem_of_mem_getLast? hlast) with ⟨n, hn⟩ | ⟨rem0, hr⟩
    · exact absurd hn (by simp)
    · injection hr with e1 e2 e3 e4 e5 e6
      subst e2 e3 e4
      split at h
      · obtain ⟨pad, hpad, hrec1⟩ := except_bind_eq_ok h
        rw [if_pos (Or.inl rfl)] at hpad
        first
          | rw [if_neg hneg] at hpad
          | skip
        obtain rfl := Except.ok.inj hpad
        simp only [List.nil_append, Option.getD_none, List.length_nil,
          List.replicate_zero, Nat.sub_zero] at hrec1
        exact hrec _ _ _ _ _ hPd
          (Or.inr ⟨_, rfl, cellsAllEmpty_replicate _⟩) hrec1
      · split at h
        · rename_i hc2
          exact absurd hc2.2.1 hins
        · obtain rfl := Except.ok.inj h
          dsimp only
          rw [pushReplaceInternal_none_eq, if_neg (fun hc => hins hc.2)]
          exact ⟨remove, none, none, none, none,
            List.mem_append.mpr (Or.inr (by simp))⟩
  · exact absurd h (by simp)
  · obtain rfl := Except.ok.inj h
    dsimp only
    rw [pushReplaceInternal_none_eq, if_neg (fun hc => hins hc.2)]
    exact ⟨remove, none, none, none, none,
      List.mem_append.mpr (Or.inr (by simp))⟩

/-- `pushReplace` with nonempty insert, empty-or-absent insert metadata
and no markers, on a metadata-free document, puts a replace carrying the
insert into the result. -/
theorem pushReplaceF_insert_mem (doc : Doc)
    (hmeta : cellsAllEmpty doc.metadata = true)
    (ins : List Item) (hins : ins ≠ []) :
    ∀ (fuel : Nat) (offset removeLength : Int) (im : Option (List Cell))
      (ops ops' : List Op),
      cleanShape ops → emptyish im →
      pushReplaceF doc fuel offset removeLength ins im none none ops = .ok ops' →
      ∃ a b c d e, Op.replace a ins b c d e ∈ ops' := by
  intro fuel
  induction fuel with
  | zero =>
    intro offset removeLength im ops ops' hP him h
    exact absurd h (by simp [pushReplaceF])
  | succ fuel ih =>
    intro offset removeLength im ops ops' hP him h
    have hre : cellsAllEmpty (doc.getMetadataRange
        { start := offset, endPos := offset + removeLength }) = true :=
      cellsAllEmpty_slice _ hmeta _ _
    simp only [pushReplaceF] at h
    split at h
    · rename_i hcnd
      exact absurd hcnd.2 hins
    · rcases him with rfl | ⟨cs, rfl, hcs⟩
      · first
          | dsimp only at h
          | skip
        first
          | rw [if_pos hre] at h
          | skip
        first
          | dsimp only at h
          | skip
        repeat' split at h
        all_goals dsimp only at h
        all_goals
          first
            | exact pushReplaceCore_insert_mem _ ins hins
                (fun off len im2 o o' hp hm hh => ih off len im2 o o' hp hm hh)
                _ _ _ _ _ _ _ hP h
            | (exfalso
               exact cleanShape_no_rmLast hP (by assumption))
      · first
          | dsimp only at h
          | skip
        first
          | rw [if_pos ⟨hcs, hre⟩] at h
          | skip
        first
          | dsimp only at h
          | skip
        repeat' split at h
        all_goals dsimp only at h
        all_goals
          first
            | exact pushReplaceCore_insert_mem _ ins hins
                (fun off len im2 o o' hp hm hh => ih off len im2 o o' hp hm hh)
                _ _ _ _ _ _ _ hP h
            | (exfalso
               exact cleanShape_no_rmLast hP (by assumption))

/-- The `addSafeRemoveOps` loop preserves any predicate closed under
`pushRetain` and the empty-insert `pushReplace` it issues. -/
theorem addSafeRemoveOpsLoop_preserves (doc : Doc) (rmFlag : Bool)
    (P : List Op → Prop)
    (hretain : ∀ (n : Int) (o o' : List Op), P o → pushRetain n o = .ok o' → P o')
    (hreplace : ∀ (off len : Int) (o o' : List Op), P o →
      pushReplace doc off len [] (if rmFlag then some [] else none) none none o = .ok o' →
      P o') :
    ∀ (n : Nat) (i : Int) (st st' : SafeRemoveState),
      P st.ops → addSafeRemoveOpsLoop doc rmFlag n i st = .ok st' → P st'.ops := by
  intro n
  induction n with
  | zero =>
    intro i st st' hP h
    rw [addSafeRemoveOpsLoop] at h
    obtain rfl := Except.ok.inj h
    exact hP
  | succ n ih =>
    intro i st st' hP h
    rw [addSafeRemoveOpsLoop] at h
    obtain ⟨st2, hstep, hloop⟩ := except_bind_eq_ok h
    refine ih (i + 1) st2 st' ?_ hloop
    split at hstep
    · split at hstep
      · obtain rfl := Except.ok.inj hstep
        exact hP
      · split at hstep
        · obtain ⟨ops1, hops1, hrest⟩ := except_bind_eq_ok hstep
          obtain ⟨ops2, hops2, hfin⟩ := except_bind_eq_ok hrest
          obtain rfl := Except.ok.inj hfin
          have hP1 : P ops1 := by
            split at hops1
            · split at hops1
              · obtain rfl := Except.ok.inj hops1
                exact hP
              · exact hretain _ _ _ hP hops1
            · obtain rfl := Except.ok.inj hops1
              exact hP
          exact hreplace _ _ _ _ hP1 hops2
        · obtain rfl := Except.ok.inj hstep
          exact hP
    · split at hstep
      · obtain rfl := Except.ok.inj hstep
        exact hP
      · dsimp only at hstep
        split at hstep
        · obtain rfl := Except.ok.inj hstep
          exact hP
        · obtain rfl := Except.ok.inj hstep
          exact hP
    · obtain rfl := Except.ok.inj hstep
      exact hP

/-- `addSafeRemoveOps` preserves any predicate closed under `pushRetain`
and its empty-insert `pushReplace`. -/
theorem addSafeRemoveOps_preserves (doc : Doc) (rmFlag : Bool)
    (P : List Op → Prop)
    (hretain : ∀ (n : Int) (o o' : List Op), P o → pushRetain n o = .ok o' → P o')
    (hreplace : ∀ (off len : Int) (o o' : List Op), P o →
      pushReplace doc off len [] (if rmFlag then some [] else none) none none o = .ok o' →
      P o') :
    ∀ (rs re : Int) (ops : List Op) (r : List Op × Int),
      P ops → addSafeRemoveOps doc rs re rmFlag ops = .ok r → P r.1 := by
  intro rs re ops r hP h
  unfold addSafeRemoveOps at h
  obtain ⟨st, hst, hrest⟩ := except_bind_eq_ok h
  have hPst : P st.ops :=
    addSafeRemoveOpsLoop_preserves doc rmFlag P hretain hreplace _ _ _ _ hP hst
  split at hrest
  · obtain ⟨ops1, hops1, hrest2⟩ := except_bind_eq_ok hrest
    obtain ⟨ops2, hops2, hfin⟩ := except_bind_eq_ok hrest2
    obtain rfl := Except.ok.inj hfin
    have hP1 : P ops1 := by
      split at hops1
      · split at hops1
        · obtain rfl := Except.ok.inj hops1
          exact hPst
        · exact hretain _ _ _ hPst hops1
      · obtain rfl := Except.ok.inj hops1
        exact hPst
    exact hreplace _ _ _ _ hP1 hops2
  · obtain rfl := Except.ok.inj hrest
    exact hPst

/-- The `pushRemoval` per-node loop preserves any predicate closed under
`pushRetain` and the empty-insert `pushReplace`. -/
theorem pushRemovalLoop_preserves (doc : Doc) (rmFlag : Bool)
    (P : List Op → Prop)
    (hretain : ∀ (n : Int) (o o' : List Op), P o → pushRetain n o = .ok o' → P o')
    (hreplace : ∀ (off len : Int) (o o' : List Op), P o →
      pushReplace doc off len [] (if rmFlag then some [] else none) none none o = .ok o' →
      P o') :
    ∀ (sel : List SelNode) (st st' : Int × Option (Int × Int) × List Op),
      P st.2.2 → pushRemovalLoop doc rmFlag sel st = .ok st' → P st'.2.2 := by
  intro sel
  induction sel with
  | nil =>
    intro st st' hP h
    rw [pushRemovalLoop] at h
    obtain rfl := Except.ok.inj h
    exact hP
  | cons sel rest ih =>
    intro st st' hP h
    obtain ⟨offsetA, rse, ops⟩ := st
    simp only [pushRemovalLoop] at h
    split at h
    · refine ih _ _ ?_ h
      exact hP
    · split at h
      · refine ih _ _ ?_ h
        exact hP
      · obtain ⟨ops1, hops1, h2⟩ := except_bind_eq_ok h
        obtain ⟨r2, hr2, h3⟩ := except_bind_eq_ok h2
        refine ih _ _ ?_ h3
        exact addSafeRemoveOps_preserves doc rmFlag P hretain hreplace _ _ _ _
          (hretain _ _ _ hP hops1) hr2

/-- `pushRemoval` preserves any predicate closed under `pushRetain` and the
empty-insert `pushReplace`. -/
theorem pushRemoval_preserves (doc : Doc) (rmFlag : Bool)
    (P : List Op → Prop)
    (hretain : ∀ (n : Int) (o o' : List Op), P o → pushRetain n o = .ok o' → P o')
    (hreplace : ∀ (off len : Int) (o o' : List Op), P o →
      pushReplace doc off len [] (if rmFlag then some [] else none) none none o = .ok o' →
      P o') :
    ∀ (curOff : Int) (r : Range) (ops : List Op) (res : List Op × Int),
      P ops → pushRemoval doc curOff r rmFlag ops = .ok res → P res.1 := by
  intro curOff r ops res hP h
  unfold pushRemoval at h
  split at h
  · obtain ⟨ops1, hops1, hfin⟩ := except_bind_eq_ok h
    obtain rfl := Except.ok.inj hfin
    exact hretain _ _ _ hP hops1
  · split at h
    · exact absurd h (by simp)
    · rename_i firstN restSelN hseleq
      dsimp only at h
      by_cases hmerge : doc.canBeMergedWith firstN
          ((firstN :: restSelN).getLastD firstN) = true
      · rw [if_pos hmerge] at h
        obtain ⟨ops1, hops1, h2⟩ := except_bind_eq_ok h
        obtain ⟨r2, hr2, hfin⟩ := except_bind_eq_ok h2
        obtain rfl := Except.ok.inj hfin
        exact addSafeRemoveOps_preserves doc rmFlag P hretain hreplace _ _ _ _
          (hretain _ _ _ hP hops1) hr2
      · rw [if_neg hmerge] at h
        obtain ⟨st, hst, h2⟩ := except_bind_eq_ok h
        have hPst : P st.2.2 :=
          pushRemovalLoop_preserves doc rmFlag P hretain hreplace _ _ _ hP hst
        split at h2
        · obtain ⟨ops1, hops1, h3⟩ := except_bind_eq_ok h2
          obtain ⟨r2, hr2, hfin⟩ := except_bind_eq_ok h3
          obtain rfl := Except.ok.inj hfin
          exact addSafeRemoveOps_preserves doc rmFlag P hretain hreplace _ _ _ _
            (hretain _ _ _ hPst hops1) hr2
        · obtain rfl := Except.ok.inj h2
          exact hPst

/-- `pushFinalRetain` preserves any predicate closed under `pushRetain`
and `pushRetainMetadata`. -/
theorem pushFinalRetain_preserves (doc : Doc)
    (P : List Op → Prop)
    (hretain : ∀ (n : Int) (o o' : List Op), P o → pushRetain n o = .ok o' → P o')
    (hretainMeta : ∀ (n : Int) (o o' : List Op), P o →
      pushRetainMetadata n o = .ok o' → P o')
    (offset : Int) (mo : Option Int) (ops ops' : List Op)
    (hP : P ops) (h : pushFinalRetain doc offset mo ops = .ok ops') : P ops' := by
  unfold pushFinalRetain at h
  obtain ⟨r1, hr1, hrest⟩ := except_bind_eq_ok h
  have hPr1 : P r1.1 := by
    split at hr1
    · obtain ⟨o, ho, hfin⟩ := except_bind_eq_ok hr1
      obtain rfl := Except.ok.inj hfin
      exact hretain _ _ _ hP ho
    · obtain rfl := Except.ok.inj hr1
      exact hP
  split at hrest
  · exact hretainMeta _ _ _ hPr1 hrest
  · obtain rfl := Except.ok.inj hrest
    exact hPr1

/-- C5: `newFromRemoval` inserts the empty paragraph exactly under the
document-non-emptiness condition. For a range that does not span from
offset 0 to the internal list, every `replace` in the resulting
transaction has an empty insert, so no insertion of any kind (in
particular no `{paragraph}{/paragraph}`) is added. When the condition
holds - on a metadata-free document whose insertion fixup is the
identity - the resulting transaction contains a `replace` whose insert is
exactly the empty-paragraph data. -/
theorem C5_newFromRemoval_empty_paragraph (doc : Doc) (range : Range) (rm : Bool) :
    (¬ (range.start = 0 ∧ doc.internalListStart ≤ range.endPos) →
      ∀ tx, newFromRemoval doc range rm = .ok tx → emptyInsertOnly tx.operations) ∧
    ((range.start = 0 ∧ doc.internalListStart ≤ range.endPos) →
      cellsAllEmpty doc.metadata = true →
      (∀ (data : List Item) (off : Int), doc.fixupInsertion data off =
        { offset := off, remove := 0, data := data,
          insertedDataOffset := none, insertedDataLength := none }) →
      ∀ tx, newFromRemoval doc range rm = .ok tx →
        ∃ a b c d e, Op.replace a paraData b c d e ∈ tx.operations) := by
  constructor
  · intro hcond tx h
    have hret : ∀ (n : Int) (o o' : List Op), emptyInsertOnly o →
        pushRetain n o = .ok o' → emptyInsertOnly o' := by
      intro n o o' hP hh op hop rem ins rmeta imeta ido idl heq
      rcases pushRetain_shape hh op hop with hmem | ⟨m, hm⟩
      · exact hP op hmem rem ins rmeta imeta ido idl heq
      · subst heq
        exact absurd hm (by simp)
    have hretM : ∀ (n : Int) (o o' : List Op), emptyInsertOnly o →
        pushRetainMetadata n o = .ok o' → emptyInsertOnly o' := by
      intro n o o' hP hh op hop rem ins rmeta imeta ido idl heq
      rcases pushRetainMetadata_shape hh op hop with hmem | ⟨m, hm⟩
      · exact hP op hmem rem ins rmeta imeta ido idl heq
      · subst heq
        exact absurd hm (by simp)
    have hrep : ∀ (off len : Int) (o o' : List Op), emptyInsertOnly o →
        pushReplace doc off len [] (if rm then some [] else none) none none o = .ok o' →
        emptyInsertOnly o' := by
      intro off len o o' hP hh
      exact pushReplaceF_emptyInsert doc (o.length + 1) off len _ none none o o' hP hh
    unfold newFromRemoval at h
    obtain ⟨r1, h1, h2⟩ := except_bind_eq_ok h
    rw [if_neg hcond] at h2
    obtain ⟨r2, h2a, h3⟩ := except_bind_eq_ok h2
    obtain rfl := Except.ok.inj h2a
    obtain ⟨ops3, h3a, hfin⟩ := except_bind_eq_ok h3
    obtain rfl := Except.ok.inj hfin
    have hPr1 : emptyInsertOnly r1.1 :=
      pushRemoval_preserves doc rm emptyInsertOnly hret hrep _ _ _ _
        (fun op hop => absurd hop (List.not_mem_nil _)) h1
    exact pushFinalRetain_preserves doc emptyInsertOnly hret hretM _ _ _ _ hPr1 h3a
  · intro hcond hmeta hfix tx h
    have hretC : ∀ (n : Int) (o o' : List Op), cleanShape o →
        pushRetain n o = .ok o' → cleanShape o' := by
      intro n o o' hP hh op hop
      rcases pushRetain_shape hh op hop with hmem | ⟨m, hm⟩
      · exact hP op hmem
      · exact Or.inl ⟨m, hm⟩
    have hrepC : ∀ (off len : Int) (o o' : List Op), cleanShape o →
        pushReplace doc off len [] (if rm then some [] else none) none none o = .ok o' →
        cleanShape o' := by
      intro off len o o' hP hh
      refine pushReplaceF_cleanShape doc hmeta _ _ _ _ _ _ hP ?_ hh
      cases rm
      · exact Or.inl rfl
      · exact Or.inr ⟨[], rfl, rfl⟩
    unfold newFromRemoval at h
    obtain ⟨r1, h1, h2⟩ := except_bind_eq_ok h
    rw [if_pos hcond] at h2
    obtain ⟨r2, h2a, h3⟩ := except_bind_eq_ok h2
    obtain ⟨ops3, h3a, hfin⟩ := except_bind_eq_ok h3
    obtain rfl := Except.ok.inj hfin
    have hclean : cleanShape r1.1 :=
      pushRemoval_preserves doc rm cleanShape hretC hrepC _ _ _ _
        (fun op hop => absurd hop (List.not_mem_nil _)) h1
    unfold pushInsertion at h2a
    rw [hfix] at h2a
    obtain ⟨ops1, hops1, h2b⟩ := except_bind_eq_ok h2a
    obtain ⟨ops2, hops2, h2c⟩ := except_bind_eq_ok h2b
    obtain rfl := Except.ok.inj h2c
    rw [show r1.2 - r1.2 = (0 : Int) by ring, pushRetain_zero] at hops1
    obtain rfl := Except.ok.inj hops1
    have hmem : ∃ a b c d e, Op.replace a paraData b c d e ∈ ops2 :=
      pushReplaceF_insert_mem doc hmeta paraData (by simp [paraData]) _ _ _ _ _ _
        hclean (Or.inl rfl) hops2
    obtain ⟨a, b, c, d, e, hmem2⟩ := hmem
    refine ⟨a, b, c, d, e, ?_⟩
    exact pushFinalRetain_preserves doc (fun o => Op.replace a paraData b c d e ∈ o)
      (fun n o o' hp hh => pushRetain_mem_preserved hp (by simp) hh)
      (fun n o o' hp hh => pushRetainMetadata_mem_preserved hp (by simp) hh)
      _ _ _ _ hmem2 h3a

/-- C5 witness: on the empty witness document, removing the collapsed
range at 0 fires the non-emptiness rule and the result contains the
empty-paragraph insertion. -/
theorem C5_witness :
    ∃ tx, newFromRemoval wDocEmpty { start := 0, endPos := 0 } false = .ok tx ∧
      ∃ a b c d e, Op.replace a paraData b c d e ∈ tx.operations := by
  refine ⟨{ operations := [Op.replace [] paraData none none none none],
            applied := false }, rfl, ?_⟩
  exact (C5_newFromRemoval_empty_paragraph wDocEmpty
      { start := 0, endPos := 0 } false).2
    (by constructor <;> rfl) rfl (fun data off => rfl) _ rfl

end VeDm
